import Mathlib

/-!
Verification of the PandABlocks-ioc `_types` module.

This file gives a shallow embedding of `src/pandablocks_ioc/_types.py`:

* the three name spaces (`EpicsName` / control form with `:` dividers,
  `PandAName` / device form with `.` dividers, `PviName` / display form) and
  their pattern-matching constructor validators;
* the scalar helpers `check_num_labels`, `trim_string_value`,
  `trim_description` and the `RecordInfo` dataclass;
* the table codec (pack/unpack of packed bit tables), which is not part of the
  shown sources (only its test fixtures are) and is therefore modelled from the
  specification.

Strings are embedded as `List Char`.  Python exceptions are embedded as
`Except`/`Option` error results; `logging.error`/`logging.info` calls are
embedded as an `Option LogLevel` component of the result.
-/

set_option maxHeartbeats 1000000
set_option linter.unusedVariables false

/-! ### Characters and regex-style patterns -/

/-- A character matched by the regex class `\w` (ASCII reading). -/
def isWordChar (c : Char) : Bool := c.isAlphanum || decide (c = '_')

/-- The `EpicsName` field pattern `^[\w:-]+$` (control form). -/
def controlPatternb (s : List Char) : Bool :=
  !s.isEmpty && s.all (fun c => isWordChar c || decide (c = ':') || decide (c = '-'))

/-- The `PandAName` field pattern `^[A-Za-z0-9]+$` as written in the source. -/
def pandaPatternb (s : List Char) : Bool :=
  !s.isEmpty && s.all Char.isAlphanum

/-- The `PviName` field pattern `^[A-Za-z0-9]+$`. -/
def pviPatternb (s : List Char) : Bool :=
  !s.isEmpty && s.all Char.isAlphanum

/-- Python `str.split(sep)` semantics on character lists:
`splitChar p "a::b" = ["a", "", "b"]`, `splitChar p "" = [""]`. -/
def splitChar (p : Char → Bool) : List Char → List (List Char)
  | [] => [[]]
  | c :: cs =>
    if p c then [] :: splitChar p cs
    else
      match splitChar p cs with
      | [] => [[c]]
      | w :: ws => (c :: w) :: ws

/-- Python `str.split(sep, maxsplit := 1)`: `none` when the separator is
absent (so that tuple-unpacking the result raises `ValueError`). -/
def splitFirst (sep : Char) : List Char → Option (List Char × List Char)
  | [] => none
  | c :: cs =>
    if c = sep then some ([], cs)
    else (splitFirst sep cs).map (fun q => (c :: q.1, q.2))

/-- The device-form grammar as the specification words it: one or more
segments matching `[A-Za-z0-9]+` joined by a dot. -/
def deviceGrammarb (s : List Char) : Bool :=
  (splitChar (fun c => decide (c = '.')) s).all
    (fun seg => !seg.isEmpty && seg.all Char.isAlphanum)

def colonToDot (c : Char) : Char := if c = ':' then '.' else c

def dotToColon (c : Char) : Char := if c = '.' then ':' else c

def labelSuffix : List Char := ":LABEL".toList

/-! ### The three name validators -/

/-- The argument of a validator: a plain string or one of the three
name classes (`EpicsName`, `PandAName`, `PviName`). -/
inductive NameArg
  | strArg (s : List Char)
  | epicsArg (s : List Char)
  | pandaArg (s : List Char)
  | pviArg (s : List Char)

/-- Failure modes of the validators.  `formatError` embeds a pydantic pattern
mismatch, `notSupported` embeds Python's `NotImplementedError` (the
specification's `NotSupportedError`), `valueError` a tuple-unpacking
`ValueError`, `indexError` an out-of-range `[-1]` index, `assertionError` a
failed `assert`. -/
inductive NameError
  | formatError
  | notSupported
  | valueError
  | indexError
  | assertionError
deriving DecidableEq

deriving instance DecidableEq for Except

/-- `EpicsName` construction (control form, `:` dividers): the `name` pattern
for plain strings together with the `field_validator` dispatch on the source
type. -/
def epicsNameValidator : NameArg → Except NameError (List Char)
  | .strArg s => if controlPatternb s then .ok s else .error .formatError
  | .epicsArg s => .ok s
  | .pviArg _ => .error .notSupported
  | .pandaArg s => .ok (s.map dotToColon)

/-- `field_name.split(":")[-2]` — the block-name segment used by the
`:LABEL` branch of `PandAName.validator`. -/
def blockNameSegment (s : List Char) : List Char :=
  let segs := splitChar (fun c => decide (c = ':')) s
  segs.getD (segs.length - 2) []

/-- Append `"1"` when the block name does not end in a digit. -/
def blockNameWithInstance (block : List Char) : List Char :=
  if (block.getLastD ' ').isDigit then block else block ++ ['1']

/-- The device-side record name that the `:LABEL` branch of
`PandAName.validator` computes into the local `record_name` — and then
discards: `*METADATA.LABEL_<block>` with an implicit `1` instance suffix. -/
def labelRecordName (s : List Char) : List Char :=
  "*METADATA.LABEL_".toList ++ blockNameWithInstance (blockNameSegment s)

/-- `PandAName` construction (device form, `.` dividers).  In the
`EpicsName` branch the source computes `record_name` (either
`labelRecordName` for `:LABEL` names, or the tail of `split(":", 1)`) but
never uses it: the assigned value is always `value.name.replace(":", ".")`.
The dead computation still has observable effects — `block_name[-1]` raises
`IndexError` on an empty block segment, and tuple-unpacking `split(":", 1)`
raises `ValueError` when the name contains no colon — so those are kept. -/
def pandaNameValidator : NameArg → Except NameError (List Char)
  | .strArg s => if pandaPatternb s then .ok s else .error .formatError
  | .epicsArg s =>
    if labelSuffix.isSuffixOf s then
      if blockNameSegment s = [] then .error .indexError
      else .ok (s.map colonToDot)
    else
      match splitFirst ':' s with
      | none => .error .valueError
      | some _ => .ok (s.map colonToDot)
  | .pviArg _ => .error .notSupported
  | .pandaArg s => .ok s

/-- Python `str.capitalize`: first character upper-cased, the rest
lower-cased. -/
def pyCapitalize : List Char → List Char
  | [] => []
  | c :: cs => c.toUpper :: cs.map Char.toLower

/-- `re.search(r"[A-Za-z0-9]+", s)`: the first maximal alphanumeric run,
`[]` when the string has no alphanumeric character (`re.search` returns
`None` and the source's `assert` fails). -/
def firstAlnumRun : List Char → List Char
  | [] => []
  | c :: cs =>
    if c.isAlphanum then c :: cs.takeWhile Char.isAlphanum
    else firstAlnumRun cs

/-- `PviName` construction (display form, PascalCase): final `:`-segment,
`-` replaced by `_`, split on `_`, each word capitalized and joined, then the
first alphanumeric run of the result (with `assert formatted_word`). -/
def pviNameValidator : NameArg → Except NameError (List Char)
  | .strArg s => if pviPatternb s then .ok s else .error .formatError
  | .epicsArg s =>
    let seg := (splitChar (fun c => decide (c = ':')) s).getLastD []
    let words :=
      splitChar (fun c => decide (c = '_')) (seg.map (fun c => if c = '-' then '_' else c))
    let run := firstAlnumRun ((words.map pyCapitalize).flatten)
    if run.isEmpty then .error .assertionError else .ok run
  | .pviArg s => .ok s
  | .pandaArg _ => .error .notSupported

/-- The display-form projection as the specification words it: the final
colon-separated segment with the separators `-` and `_` removed, each
separator-delimited word capitalized, keeping only alphanumeric
characters. -/
def displayFormSpec (s : List Char) : List Char :=
  let seg := (splitChar (fun c => decide (c = ':')) s).getLastD []
  ((splitChar (fun c => decide (c = '-') || decide (c = '_')) seg).map
      pyCapitalize).flatten.filter Char.isAlphanum

/-! ### Scalar helpers -/

/-- Severity of an emitted log message. -/
inductive LogLevel
  | error
  | info
deriving DecidableEq

/-- `trim_string_value`: record values are at most 40 characters long; longer
values are truncated to 39 characters with an error-severity log.  The second
component records the log call (`none` = no log emitted). -/
def trim_string_value (value record_name : List Char) : List Char × Option LogLevel :=
  if 39 < value.length then (value.take 39, some .error) else (value, none)

/-- `trim_description`: descriptions longer than 39 characters are truncated
with an info-severity log; `None` (and short values) pass through
unchanged. -/
def trim_description (description : Option (List Char)) (record_name : List Char) :
    Option (List Char) × Option LogLevel :=
  match description with
  | none => (none, none)
  | some d =>
    if 39 < d.length then (some (d.take 39), some .info) else (some d, none)

/-- `check_num_labels`: the assert that the labels fit an mbbi/mbbo record;
`true` means the assertion passes. -/
def check_num_labels (labels : List String) (record_name : List Char) : Bool :=
  decide (labels.length ≤ 16)

/-! ### RecordInfo

The dataclass `RecordInfo`.  The external types are parameters: `R` is the
PythonSoftIOC `RecordWrapper`, `F` the pandablocks `FieldInfo`, `A` the
`data_type_func` callable, `C` the `on_changes_func` callable.  The fields
`record`, `pending_change` (`_pending_change`) and `field_info`
(`_field_info`) are declared with `init=False` in the source, so `make` — the
generated `__init__` — has no parameters for them. -/

structure RecordInfo (R F A C : Type) where
  record : Option R
  data_type_func : A
  labels : Option (List String)
  is_in_record : Bool
  on_changes_func : Option C
  pending_change : Bool
  field_info : Option F

/-- The generated `__init__`: only `data_type_func`, `labels`,
`is_in_record` and `on_changes_func` can be supplied; `record` starts unset,
`_pending_change` starts `False` and `_field_info` starts `None`. -/
def RecordInfo.make (R F A C : Type) (data_type_func : A) (labels : Option (List String))
    (is_in_record : Bool) (on_changes_func : Option C) : RecordInfo R F A C :=
  { record := none
    data_type_func := data_type_func
    labels := labels
    is_in_record := is_in_record
    on_changes_func := on_changes_func
    pending_change := false
    field_info := none }

/-- `RecordInfo(data_type_func)` with the dataclass defaults
`labels=None`, `is_in_record=True`, `on_changes_func=None`. -/
def RecordInfo.makeDefault (R F A C : Type) (data_type_func : A) : RecordInfo R F A C :=
  RecordInfo.make R F A C data_type_func none true none

/-- `RecordInfo.add_record`. -/
def RecordInfo.add_record {R F A C : Type} (ri : RecordInfo R F A C) (rec : R) :
    RecordInfo R F A C :=
  { ri with record := some rec }

/-! ### Table codec

Modelled from the spec: the Table Codec (spec §4.2) — the pack/unpack
functions between the wire word representation of a table and its
column-array representation — is not part of the shown sources; only its
test fixtures (`tests/fixtures/panda_data.py`) are.  The definitions below
follow the specification: a row is `ceil((max bit_high + 1) / W)` words of
`W` bits; each field occupies the inclusive bit range `[bit_low, bit_high]`
of the row's bit string; subtypes are unsigned, signed (two's complement in
the field width) and enumerated (coded by first-matching index into the
label list).  The word-boundary splitting arithmetic is derived, as §9 of
the spec instructs, from the invariant that an extracted field value,
reassembled, reproduces the original word bits. -/

/-- Field subtype: unsigned integer, signed integer or enumerated. -/
inductive TableSubtype
  | uint
  | int
  | enum
deriving DecidableEq

/-- Modelled from the spec: one Field Metadata entry (spec §3), mirroring the
fixture type `TableFieldDetails`. -/
structure TableFieldDetails where
  name : String
  subtype : TableSubtype
  bit_low : Nat
  bit_high : Nat
  labels : Option (List String)
  description : Option String
deriving DecidableEq

/-- A decoded column element: a number (unsigned or signed field) or an enum
label. -/
inductive TableValue
  | num (n : Int)
  | label (s : String)
deriving DecidableEq

/-- Width in bits of a field's inclusive range. -/
def fieldWidth (f : TableFieldDetails) : Nat := f.bit_high - f.bit_low + 1

/-- Extract the `width`-bit field at bit offset `lo` from a row value. -/
def extractBits (lo width n : Nat) : Nat := n / 2 ^ lo % 2 ^ width

/-- Modelled from the spec: decode one extracted field code (spec §4.2
Unpack steps 3-4): sign-extend signed fields, map enum codes to labels
(`none` on an out-of-range code — a decode error). -/
def decodeField (f : TableFieldDetails) (code : Nat) : Option TableValue :=
  match f.subtype with
  | .uint => some (.num (code : Int))
  | .int =>
    some (.num (if 2 ^ (fieldWidth f - 1) ≤ code then
      (code : Int) - 2 ^ fieldWidth f else (code : Int)))
  | .enum =>
    match f.labels with
    | some ls => if h : code < ls.length then some (.label (ls.get ⟨code, h⟩)) else none
    | none => none

/-- Modelled from the spec: encode one column value to its field code (spec
§4.2 Pack steps 1-2): range-check unsigned values, two's-complement encode
signed values, map labels to their first-matching index (`none` on an
unknown label or an out-of-range value). -/
def encodeField (f : TableFieldDetails) (v : TableValue) : Option Nat :=
  match f.subtype, v with
  | .uint, .num n =>
    if 0 ≤ n ∧ n < 2 ^ fieldWidth f then some n.toNat else none
  | .int, .num n =>
    if -(2 : Int) ^ (fieldWidth f - 1) ≤ n ∧ n < 2 ^ (fieldWidth f - 1) then
      some ((n % (2 : Int) ^ fieldWidth f).toNat)
    else none
  | .enum, .label s =>
    match f.labels with
    | some ls => if s ∈ ls then some (ls.indexOf s) else none
    | none => none
  | _, _ => none

/-- Encode a whole row of column values to their field codes. -/
def encodeRow : List TableFieldDetails → List TableValue → Option (List Nat)
  | [], [] => some []
  | f :: fs, v :: vs =>
    match encodeField f v, encodeRow fs vs with
    | some c, some cs => some (c :: cs)
    | _, _ => none
  | _, _ => none

/-- Decode a whole row of field codes to column values. -/
def decodeRow : List TableFieldDetails → List Nat → Option (List TableValue)
  | [], [] => some []
  | f :: fs, c :: cs =>
    match decodeField f c, decodeRow fs cs with
    | some v, some vs => some (v :: vs)
    | _, _ => none
  | _, _ => none

/-- OR each field code into its bit position (spec §4.2 Pack step 3); with
non-overlapping in-width codes the OR is a sum. -/
def spreadRow : List TableFieldDetails → List Nat → Nat
  | f :: fs, c :: cs => c * 2 ^ f.bit_low + spreadRow fs cs
  | _, _ => 0

/-- Extract every field's code from a row value (spec §4.2 Unpack step 2). -/
def extractRow (fields : List TableFieldDetails) (n : Nat) : List Nat :=
  fields.map (fun f => extractBits f.bit_low (fieldWidth f) n)

/-- Pack one row of column values into a single row value. -/
def packRowNat (fields : List TableFieldDetails) (vs : List TableValue) : Option Nat :=
  (encodeRow fields vs).map (spreadRow fields)

/-- Unpack one row value into its column values. -/
def unpackRowNat (fields : List TableFieldDetails) (n : Nat) : Option (List TableValue) :=
  decodeRow fields (extractRow fields n)

/-- The row value of a little-endian list of `Wd`-bit words. -/
def wordsToNat (Wd : Nat) : List Nat → Nat
  | [] => 0
  | w :: ws => w + 2 ^ Wd * wordsToNat Wd ws

/-- The `nw`-word little-endian representation of a row value. -/
def natToWords (Wd : Nat) : Nat → Nat → List Nat
  | 0, _ => []
  | nw + 1, n => n % 2 ^ Wd :: natToWords Wd nw (n / 2 ^ Wd)

/-- Total bit width of a row: `max bit_high + 1`. -/
def rowWidth (fields : List TableFieldDetails) : Nat :=
  (fields.map (fun f => f.bit_high)).foldr max 0 + 1

/-- Words per row: `ceil((max bit_high + 1) / W)` (spec §4.2 Unpack
step 1). -/
def wordsPerRow (Wd : Nat) (fields : List TableFieldDetails) : Nat :=
  (rowWidth fields + Wd - 1) / Wd

/-- Unpack one wire row (word list) into column values, validating the word
count and the word width. -/
def unpackRowWords (Wd : Nat) (fields : List TableFieldDetails) (ws : List Nat) :
    Option (List TableValue) :=
  if ws.length = wordsPerRow Wd fields ∧ ∀ w ∈ ws, w < 2 ^ Wd then
    unpackRowNat fields (wordsToNat Wd ws)
  else none

/-- Pack one row of column values into a wire row of
`wordsPerRow` words. -/
def packRowWords (Wd : Nat) (fields : List TableFieldDetails) (vs : List TableValue) :
    Option (List Nat) :=
  (packRowNat fields vs).map (natToWords Wd (wordsPerRow Wd fields))

/-- Row-major view of a column-major table: row `r` is the `r`-th element of
every column. -/
def colsToRows (R : Nat) (cols : List (List TableValue)) : List (List TableValue) :=
  (List.range R).map (fun r => cols.map (fun col => col.getD r (.num 0)))

/-- Column-major view of a row-major table: column `i` is the `i`-th element
of every row. -/
def rowsToCols (nf : Nat) (rows : List (List TableValue)) : List (List TableValue) :=
  (List.range nf).map (fun i => rows.map (fun row => row.getD i (.num 0)))

/-- The row count of a column array. -/
def numRows : List (List TableValue) → Nat
  | [] => 0
  | col :: _ => col.length

/-- Pack each wire row in order. -/
def packRows (Wd : Nat) (fields : List TableFieldDetails) :
    List (List TableValue) → Option (List (List Nat))
  | [] => some []
  | row :: rest =>
    match packRowWords Wd fields row, packRows Wd fields rest with
    | some ws, some rest' => some (ws :: rest')
    | _, _ => none

/-- Unpack each wire row in order (spec §4.2 Unpack step 5: row order is
preserved). -/
def unpackRows (Wd : Nat) (fields : List TableFieldDetails) :
    List (List Nat) → Option (List (List TableValue))
  | [] => some []
  | ws :: rest =>
    match unpackRowWords Wd fields ws, unpackRows Wd fields rest with
    | some row, some rest' => some (row :: rest')
    | _, _ => none

/-- Modelled from the spec: `pack(columns) -> words[]` (spec §4.2): one
word-count-sized word array per row, rows in the order of the input
columns. -/
def packTable (Wd : Nat) (fields : List TableFieldDetails)
    (cols : List (List TableValue)) : Option (List (List Nat)) :=
  packRows Wd fields (colsToRows (numRows cols) cols)

/-- Modelled from the spec: `unpack(words[]) -> columns` (spec §4.2): decode
every row, then collect one column per field. -/
def unpackTable (Wd : Nat) (fields : List TableFieldDetails)
    (wordRows : List (List Nat)) : Option (List (List TableValue)) :=
  (unpackRows Wd fields wordRows).map (rowsToCols fields.length)

/-! ### Well-formedness predicates for the codec -/

/-- One field's metadata constraints (spec §3): `bit_low ≤ bit_high`; a label
list exactly for enumerated fields, with at most 16 distinct labels fitting
the field width. -/
def fieldWFb (f : TableFieldDetails) : Bool :=
  decide (f.bit_low ≤ f.bit_high) &&
    match f.subtype, f.labels with
    | .enum, some ls =>
      decide (ls.length ≤ 16) && decide (ls.length ≤ 2 ^ fieldWidth f) && decide ls.Nodup
    | .enum, none => false
    | _, some _ => false
    | _, none => true

/-- Two fields occupy disjoint bit ranges. -/
def disjb (f g : TableFieldDetails) : Bool :=
  decide (f.bit_high < g.bit_low) || decide (g.bit_high < f.bit_low)

/-- All fields pairwise occupy disjoint bit ranges. -/
def pairwiseDisjb : List TableFieldDetails → Bool
  | [] => true
  | f :: fs => fs.all (disjb f) && pairwiseDisjb fs

/-- A well-formed Field Metadata set: nonempty, per-field constraints, and
pairwise non-overlapping bit ranges (spec §4.2: validated once at
configuration time). -/
def metadataWFb (fields : List TableFieldDetails) : Bool :=
  !fields.isEmpty && fields.all fieldWFb && pairwiseDisjb fields

/-- A column value respects its field's declared width and subtype
(spec §8): unsigned in `[0, 2^width)`, signed in `[-2^(width-1),
2^(width-1))`, enum label drawn from the label list. -/
def validValueb (f : TableFieldDetails) : TableValue → Bool
  | .num n =>
    match f.subtype with
    | .uint => decide (0 ≤ n) && decide (n < 2 ^ fieldWidth f)
    | .int =>
      decide (-(2 : Int) ^ (fieldWidth f - 1) ≤ n) && decide (n < 2 ^ (fieldWidth f - 1))
    | .enum => false
  | .label s =>
    match f.subtype, f.labels with
    | .enum, some ls => decide (s ∈ ls)
    | _, _ => false

/-- A well-formed Column Array for a metadata set: one column per field, all
columns of equal length, every element respecting its field's width and
subtype. -/
def columnsWFb (fields : List TableFieldDetails) (cols : List (List TableValue)) : Bool :=
  decide (cols.length = fields.length) &&
    cols.all (fun col => decide (col.length = numRows cols)) &&
    (fields.zip cols).all (fun p => p.2.all (validValueb p.1))

/-- Some field's range contains bit `k`. -/
def coveredb (fields : List TableFieldDetails) (k : Nat) : Bool :=
  fields.any (fun f => decide (f.bit_low ≤ k) && decide (k ≤ f.bit_high))

/-- A well-formed wire row: `wordsPerRow` words of `Wd` bits, no bit set
outside the declared field ranges, and every enumerated field's code within
its label list. -/
def rowWordsWFb (Wd : Nat) (fields : List TableFieldDetails) (ws : List Nat) : Bool :=
  decide (ws.length = wordsPerRow Wd fields) &&
    ws.all (fun w => decide (w < 2 ^ Wd)) &&
    (List.range (Wd * wordsPerRow Wd fields)).all
      (fun k => !(wordsToNat Wd ws).testBit k || coveredb fields k) &&
    fields.all (fun f =>
      match f.subtype, f.labels with
      | .enum, some ls =>
        decide (extractBits f.bit_low (fieldWidth f) (wordsToNat Wd ws) < ls.length)
      | _, _ => true)

/-- A well-formed wire word array: every row well formed. -/
def wordsWFb (Wd : Nat) (fields : List TableFieldDetails)
    (wordRows : List (List Nat)) : Bool :=
  wordRows.all (rowWordsWFb Wd fields)

/-! ### Proof-layer views of a packed row -/

/-- One field's contribution to a packed row: a code `c` of `w` bits placed
at bit offset `lo`. -/
structure BitSlice where
  lo : Nat
  w : Nat
  c : Nat

/-- The packed row value of a list of slices. -/
def spread : List BitSlice → Nat
  | [] => 0
  | t :: r => t.c * 2 ^ t.lo + spread r

/-- Two slices occupy disjoint bit ranges. -/
def sliceDisj (a b : BitSlice) : Prop := a.lo + a.w ≤ b.lo ∨ b.lo + b.w ≤ a.lo

/-- Every slice's code fits its width. -/
def slicesOk (l : List BitSlice) : Prop := ∀ t ∈ l, t.c < 2 ^ t.w

/-- The slices of a row: one per field, carrying that field's code. -/
def fieldSlices (fields : List TableFieldDetails) (codes : List Nat) : List BitSlice :=
  List.zipWith (fun f c => ⟨f.bit_low, fieldWidth f, c⟩) fields codes

/-! ### Concrete fixture data

The SEQ.TABLE metadata and table data of `tests/fixtures/panda_data.py`
(`table_fields`, `table_data_1`, `table_unpacked_data`), used as concrete
inputs. -/

def trigLabels : List String :=
  ["Immediate", "BITA=0", "BITA=1", "BITB=0", "BITB=1", "BITC=0", "BITC=1",
   "POSA>=POSITION", "POSA<=POSITION", "POSB>=POSITION", "POSB<=POSITION",
   "POSC>=POSITION", "POSC<=POSITION"]

def seqField (nm : String) (st : TableSubtype) (lo hi : Nat)
    (ls : Option (List String)) : TableFieldDetails :=
  ⟨nm, st, lo, hi, ls, none⟩

def seqFields : List TableFieldDetails :=
  [seqField "REPEATS" .uint 0 15 none,
   seqField "TRIGGER" .enum 16 19 (some trigLabels),
   seqField "POSITION" .int 32 63 none,
   seqField "TIME1" .uint 64 95 none,
   seqField "OUTA1" .uint 20 20 none,
   seqField "OUTB1" .uint 21 21 none,
   seqField "OUTC1" .uint 22 22 none,
   seqField "OUTD1" .uint 23 23 none,
   seqField "OUTE1" .uint 24 24 none,
   seqField "OUTF1" .uint 25 25 none,
   seqField "TIME2" .uint 96 127 none,
   seqField "OUTA2" .uint 26 26 none,
   seqField "OUTB2" .uint 27 27 none,
   seqField "OUTC2" .uint 28 28 none,
   seqField "OUTD2" .uint 29 29 none,
   seqField "OUTE2" .uint 30 30 none,
   seqField "OUTF2" .uint 31 31 none]

/-- `table_data_1`, grouped into three rows of four 32-bit words. -/
def seqTableData : List (List Nat) :=
  [[2457862149, 4294967291, 100, 0],
   [269877248, 678, 0, 55],
   [4293968720, 0, 9, 9999]]

/-- `table_unpacked_data`: one column per field, in field order. -/
def seqColumns : List (List TableValue) :=
  [[.num 5, .num 0, .num 50000],
   [.label "Immediate", .label "BITC=1", .label "Immediate"],
   [.num (-5), .num 678, .num 0],
   [.num 100, .num 0, .num 9],
   [.num 0, .num 1, .num 1],
   [.num 0, .num 0, .num 1],
   [.num 0, .num 0, .num 1],
   [.num 1, .num 0, .num 1],
   [.num 0, .num 0, .num 1],
   [.num 1, .num 0, .num 1],
   [.num 0, .num 55, .num 9999],
   [.num 0, .num 0, .num 1],
   [.num 0, .num 0, .num 1],
   [.num 1, .num 1, .num 1],
   [.num 0, .num 0, .num 1],
   [.num 0, .num 0, .num 1],
   [.num 1, .num 0, .num 1]]

/-! ## Theorems -/

/-! ### C1: the `:LABEL` special case -/

/-- C1: the claimed `:LABEL` special case is not what the code does.  The
source's `PandAName.validator` computes the metadata record name
`*METADATA.LABEL_PCAP1` into the local `record_name` and then discards it,
assigning `value.name.replace(":", ".")` instead: both `PCAP1:LABEL` and
`PCAP:LABEL` actually convert to `PCAP1.LABEL` / `PCAP.LABEL`, not to the
claimed `*METADATA.LABEL_PCAP1`. -/
theorem c1_label_conversion_bug :
    pandaNameValidator (.epicsArg "PCAP1:LABEL".toList) = .ok "PCAP1.LABEL".toList
      ∧ pandaNameValidator (.epicsArg "PCAP:LABEL".toList) = .ok "PCAP.LABEL".toList
      ∧ labelRecordName "PCAP1:LABEL".toList = "*METADATA.LABEL_PCAP1".toList
      ∧ labelRecordName "PCAP:LABEL".toList = "*METADATA.LABEL_PCAP1".toList
      ∧ "PCAP1.LABEL".toList ≠ "*METADATA.LABEL_PCAP1".toList := by
  refine ⟨?_, ?_, ?_, ?_, ?_⟩ <;> decide

/-! ### C3: Control→Device→Control round trip -/

theorem splitFirst_eq_some_of_mem (a : Char) (s : List Char) (h : a ∈ s) :
    ∃ q, splitFirst a s = some q := by
  induction s with
  | nil => cases h
  | cons c cs ih =>
    by_cases hca : c = a
    · exact ⟨([], cs), by simp [splitFirst, hca]⟩
    · have : a ∈ cs := by
        cases h with
        | head => exact absurd rfl hca
        | tail _ h' => exact h'
      obtain ⟨q, hq⟩ := ih this
      exact ⟨(c :: q.1, q.2), by simp [splitFirst, hca, hq]⟩

theorem control_char_fix (c : Char)
    (h : (isWordChar c || decide (c = ':') || decide (c = '-')) = true) :
    dotToColon (colonToDot c) = c := by
  by_cases h1 : c = ':'
  · subst h1
    decide
  · rw [colonToDot, if_neg h1]
    by_cases h2 : c = '.'
    · subst h2
      exact absurd h (by decide)
    · rw [dotToColon, if_neg h2]

/-- C3 counterexample: `PCAP` is a valid Control-form name, does not end in
`:LABEL`, but Control→Device conversion fails: with no colon in the name the
source's tuple unpacking of `field_name.split(":", maxsplit=1)` raises
`ValueError`, so the round trip never returns. -/
theorem c3_roundtrip_counterexample :
    controlPatternb "PCAP".toList = true
      ∧ labelSuffix.isSuffixOf "PCAP".toList = false
      ∧ pandaNameValidator (.epicsArg "PCAP".toList) = .error .valueError := by
  refine ⟨?_, ?_, ?_⟩ <;> decide

/-- C3 amended: for every valid Control-form name that contains at least one
colon and does not end in `:LABEL`, converting to Device form and back to
Control form returns the name unchanged. -/
theorem c3_roundtrip_amended (s : List Char) (hv : controlPatternb s = true)
    (hc : ':' ∈ s) (hl : labelSuffix.isSuffixOf s = false) :
    (pandaNameValidator (.epicsArg s)).bind
      (fun d => epicsNameValidator (.pandaArg d)) = .ok s := by
  obtain ⟨q, hq⟩ := splitFirst_eq_some_of_mem ':' s hc
  simp only [pandaNameValidator, hl, Bool.false_eq_true, if_false, hq]
  simp only [Except.bind, epicsNameValidator, List.map_map]
  have hv2 := hv
  simp only [controlPatternb, Bool.and_eq_true, List.all_eq_true] at hv2
  have hall : ∀ c ∈ s, (dotToColon ∘ colonToDot) c = c := by
    intro c hcs
    exact control_char_fix c (hv2.2 c hcs)
  rw [List.map_congr_left hall]
  simp

/-- C3 witness: the round trip at the concrete valid name `PCAP1:TRIG`. -/
theorem c3_roundtrip_amended_witness :
    controlPatternb "PCAP1:TRIG".toList = true
      ∧ (pandaNameValidator (.epicsArg "PCAP1:TRIG".toList)).bind
          (fun d => epicsNameValidator (.pandaArg d)) = .ok "PCAP1:TRIG".toList :=
  ⟨by decide, c3_roundtrip_amended _ (by decide) (by decide) (by decide)⟩

/-! ### C4: display-form projection

Character-class facts for the ASCII alphanumeric ranges, then the structure
of `splitChar`, then the corrected claim. -/

theorem char_alnum_ranges (c : Char) (h : c.isAlphanum = true) :
    (48 ≤ c.toNat ∧ c.toNat ≤ 57) ∨ (65 ≤ c.toNat ∧ c.toNat ≤ 90)
      ∨ (97 ≤ c.toNat ∧ c.toNat ≤ 122) := by
  have hnat : c.toNat = c.val.toBitVec.toNat := rfl
  simp only [Char.isAlphanum, Char.isAlpha, Char.isDigit, Char.isUpper, Char.isLower,
    Bool.or_eq_true, Bool.and_eq_true, decide_eq_true_eq, ge_iff_le, UInt32.le_def,
    BitVec.le_def] at h
  rcases h with (⟨h1, h2⟩ | ⟨h1, h2⟩) | ⟨h1, h2⟩ <;> rw [hnat] <;> revert h1 h2 <;>
    simp <;> omega

theorem char_alnum_of_ranges (c : Char)
    (h : (48 ≤ c.toNat ∧ c.toNat ≤ 57) ∨ (65 ≤ c.toNat ∧ c.toNat ≤ 90)
      ∨ (97 ≤ c.toNat ∧ c.toNat ≤ 122)) :
    c.isAlphanum = true := by
  have hnat : c.toNat = c.val.toBitVec.toNat := rfl
  rw [hnat] at h
  simp only [Char.isAlphanum, Char.isAlpha, Char.isDigit, Char.isUpper, Char.isLower,
    Bool.or_eq_true, Bool.and_eq_true, decide_eq_true_eq, ge_iff_le, UInt32.le_def,
    BitVec.le_def]
  simp
  omega

theorem char_toNat_ofNat (m : Nat) (h : m < 55296) : (Char.ofNat m).toNat = m := by
  have hv : m.isValidChar := Or.inl h
  rw [Char.ofNat, dif_pos hv]
  simp [Char.ofNatAux, Char.toNat, UInt32.toNat, UInt32.ofNatCore]

theorem isAlphanum_toUpper (c : Char) (h : c.isAlphanum = true) :
    c.toUpper.isAlphanum = true := by
  have hr := char_alnum_ranges c h
  show (if c.toNat ≥ 97 ∧ c.toNat ≤ 122 then Char.ofNat (c.toNat - 32) else c).isAlphanum
    = true
  by_cases hc : c.toNat ≥ 97 ∧ c.toNat ≤ 122
  · rw [if_pos hc]
    apply char_alnum_of_ranges
    rw [char_toNat_ofNat _ (by omega)]
    omega
  · rw [if_neg hc]
    exact h

theorem isAlphanum_toLower (c : Char) (h : c.isAlphanum = true) :
    c.toLower.isAlphanum = true := by
  have hr := char_alnum_ranges c h
  show (if c.toNat ≥ 65 ∧ c.toNat ≤ 90 then Char.ofNat (c.toNat + 32) else c).isAlphanum
    = true
  by_cases hc : c.toNat ≥ 65 ∧ c.toNat ≤ 90
  · rw [if_pos hc]
    apply char_alnum_of_ranges
    rw [char_toNat_ofNat _ (by omega)]
    omega
  · rw [if_neg hc]
    exact h

theorem splitChar_ne_nil (p : Char → Bool) (l : List Char) : splitChar p l ≠ [] := by
  induction l with
  | nil => simp [splitChar]
  | cons c cs ih =>
    by_cases hp : p c
    · simp [splitChar, hp]
    · simp only [splitChar, hp, Bool.false_eq_true, if_false]
      cases hsc : splitChar p cs with
      | nil => simp
      | cons w ws => simp

theorem mem_splitChar (p : Char → Bool) (l : List Char) :
    ∀ w ∈ splitChar p l, ∀ c ∈ w, c ∈ l ∧ p c = false := by
  induction l with
  | nil =>
    intro w hw c hc
    simp [splitChar] at hw
    subst hw
    cases hc
  | cons a as ih =>
    intro w hw c hc
    by_cases hp : p a
    · simp only [splitChar, hp, if_true] at hw
      cases hw with
      | head => cases hc
      | tail _ hw' =>
        obtain ⟨h1, h2⟩ := ih w hw' c hc
        exact ⟨List.mem_cons_of_mem a h1, h2⟩
    · simp only [splitChar, hp, Bool.false_eq_true, if_false] at hw
      cases hsc : splitChar p as with
      | nil => exact absurd hsc (splitChar_ne_nil p as)
      | cons w0 ws0 =>
        rw [hsc] at hw
        cases hw with
        | head =>
          cases hc with
          | head => exact ⟨List.mem_cons_self a as, by simpa using hp⟩
          | tail _ hc' =>
            obtain ⟨h1, h2⟩ := ih w0 (hsc ▸ List.mem_cons_self w0 ws0) c hc'
            exact ⟨List.mem_cons_of_mem a h1, h2⟩
        | tail _ hw' =>
          obtain ⟨h1, h2⟩ := ih w (hsc ▸ List.mem_cons_of_mem w0 hw') c hc
          exact ⟨List.mem_cons_of_mem a h1, h2⟩

theorem exists_mem_splitChar (p : Char → Bool) (l : List Char) (c : Char)
    (hc : c ∈ l) (hp : p c = false) : ∃ w ∈ splitChar p l, c ∈ w := by
  induction l with
  | nil => cases hc
  | cons a as ih =>
    by_cases hpa : p a
    · have hca : c ≠ a := by
        intro he
        rw [he] at hp
        rw [hp] at hpa
        cases hpa
      have hcas : c ∈ as := by
        cases hc with
        | head => exact absurd rfl hca
        | tail _ h' => exact h'
      obtain ⟨w, hw, hcw⟩ := ih hcas
      exact ⟨w, by simp only [splitChar, hpa, if_true]; exact List.mem_cons_of_mem _ hw, hcw⟩
    · cases hsc : splitChar p as with
      | nil => exact absurd hsc (splitChar_ne_nil p as)
      | cons w0 ws0 =>
        have hres : splitChar p (a :: as) = (a :: w0) :: ws0 := by
          simp only [splitChar, hpa, Bool.false_eq_true, if_false, hsc]
        cases hc with
        | head => exact ⟨c :: w0, by rw [hres]; exact List.mem_cons_self _ _,
            List.mem_cons_self _ _⟩
        | tail _ hcas =>
          obtain ⟨w, hw, hcw⟩ := ih hcas
          rw [hsc] at hw
          cases hw with
          | head => exact ⟨a :: w0, by rw [hres]; exact List.mem_cons_self _ _,
              List.mem_cons_of_mem a hcw⟩
          | tail _ hw' => exact ⟨w, by rw [hres]; exact List.mem_cons_of_mem _ hw', hcw⟩

theorem splitChar_map_dash (l : List Char) :
    splitChar (fun c => decide (c = '_'))
        (l.map (fun c => if c = '-' then '_' else c))
      = splitChar (fun c => decide (c = '-') || decide (c = '_')) l := by
  induction l with
  | nil => rfl
  | cons a as ih =>
    by_cases h1 : a = '-'
    · subst h1
      simp only [List.map_cons, if_pos rfl, splitChar, ih]
      rfl
    · by_cases h2 : a = '_'
      · subst h2
        simp only [List.map_cons, if_neg h1, splitChar, ih]
        rfl
      · simp only [List.map_cons, if_neg h1, splitChar, h1, h2, decide_False,
          Bool.or_self, Bool.false_eq_true, if_false, ih]

theorem getLastD_mem {α : Type} (l : List α) : l ≠ [] → ∀ d, l.getLastD d ∈ l := by
  induction l with
  | nil => intro h; exact absurd rfl h
  | cons a as ih =>
    intro h d
    rw [List.getLastD_cons]
    by_cases has : as = []
    · subst has
      simp [List.getLastD]
    · exact List.mem_cons_of_mem a (ih has a)

theorem alnum_ne_sep (c : Char) (h : c.isAlphanum = true) :
    (decide (c = '-') || decide (c = '_')) = false := by
  by_cases h1 : c = '-'
  · rw [h1] at h
    exact absurd h (by decide)
  · by_cases h2 : c = '_'
    · rw [h2] at h
      exact absurd h (by decide)
    · simp [h1, h2]

theorem takeWhile_of_all (p : Char → Bool) (l : List Char)
    (h : ∀ c ∈ l, p c = true) : l.takeWhile p = l := by
  induction l with
  | nil => rfl
  | cons a as ih =>
    rw [List.takeWhile_cons, h a (List.mem_cons_self a as)]
    simp [ih (fun c hc => h c (List.mem_cons_of_mem a hc))]

theorem firstAlnumRun_of_all (l : List Char) (h : ∀ c ∈ l, c.isAlphanum = true) :
    firstAlnumRun l = l := by
  cases l with
  | nil => rfl
  | cons a as =>
    rw [firstAlnumRun, if_pos (h a (List.mem_cons_self a as))]
    rw [takeWhile_of_all _ as (fun c hc => h c (List.mem_cons_of_mem a hc))]

theorem pyCapitalize_alnum (w : List Char) (h : ∀ c ∈ w, c.isAlphanum = true) :
    ∀ c ∈ pyCapitalize w, c.isAlphanum = true := by
  cases w with
  | nil => intro c hc; cases hc
  | cons a as =>
    intro c hc
    rw [pyCapitalize] at hc
    cases hc with
    | head => exact isAlphanum_toUpper a (h a (List.mem_cons_self a as))
    | tail _ hc' =>
      replace hc' : c ∈ List.map Char.toLower as := hc'
      rw [List.mem_map] at hc'
      obtain ⟨b, hb, rfl⟩ := hc'
      exact isAlphanum_toLower b (h b (List.mem_cons_of_mem a hb))

theorem pyCapitalize_ne_nil (w : List Char) (h : w ≠ []) : pyCapitalize w ≠ [] := by
  cases w with
  | nil => exact absurd rfl h
  | cons a as => simp [pyCapitalize]

/-- C4 counterexample: `X:-` is a valid Control-form name, but its final
segment `-` contains no alphanumeric character, so `re.search` finds
nothing and the source's `assert formatted_word` fails instead of
returning a display form. -/
theorem c4_display_counterexample :
    controlPatternb "X:-".toList = true
      ∧ pviNameValidator (.epicsArg "X:-".toList) = .error .assertionError := by
  refine ⟨?_, ?_⟩ <;> decide

/-- C4 amended: for every valid Control-form name whose final
colon-separated segment contains at least one alphanumeric character,
conversion to display form returns exactly the final segment with the
separators `-` and `_` removed, each separator-delimited word capitalized,
and only alphanumeric characters kept. -/
theorem c4_display_amended (s : List Char) (hv : controlPatternb s = true)
    (ha : ((splitChar (fun c => decide (c = ':')) s).getLastD []).any Char.isAlphanum
      = true) :
    pviNameValidator (.epicsArg s) = .ok (displayFormSpec s) := by
  have hv2 := hv
  simp only [controlPatternb, Bool.and_eq_true, List.all_eq_true] at hv2
  have hsegch : ∀ c ∈ (splitChar (fun c => decide (c = ':')) s).getLastD [],
      c.isAlphanum = true ∨ c = '-' ∨ c = '_' := by
    intro c hc
    obtain ⟨hcs, hnc⟩ := mem_splitChar _ s _
      (getLastD_mem _ (splitChar_ne_nil _ _) []) c hc
    have hch := hv2.2 c hcs
    simp only [isWordChar, Bool.or_eq_true, decide_eq_true_eq] at hch
    rcases hch with ((hal | hus) | hcol) | hdash
    · exact Or.inl hal
    · exact Or.inr (Or.inr hus)
    · rw [hcol] at hnc
      exact absurd hnc (by decide)
    · exact Or.inr (Or.inl hdash)
  have hwords_alnum : ∀ w ∈ splitChar (fun c => decide (c = '-') || decide (c = '_'))
      ((splitChar (fun c => decide (c = ':')) s).getLastD []),
      ∀ c ∈ w, c.isAlphanum = true := by
    intro w hw c hc
    obtain ⟨hcseg, hsep⟩ := mem_splitChar _ _ w hw c hc
    rcases hsegch c hcseg with h | h | h
    · exact h
    · rw [h] at hsep
      exact absurd hsep (by decide)
    · rw [h] at hsep
      exact absurd hsep (by decide)
  have hcap_alnum : ∀ c ∈ ((splitChar (fun c => decide (c = '-') || decide (c = '_'))
      ((splitChar (fun c => decide (c = ':')) s).getLastD [])).map pyCapitalize).flatten,
      c.isAlphanum = true := by
    intro c hc
    rw [List.mem_flatten] at hc
    obtain ⟨l, hl, hcl⟩ := hc
    rw [List.mem_map] at hl
    obtain ⟨w, hw, rfl⟩ := hl
    exact pyCapitalize_alnum w (hwords_alnum w hw) c hcl
  have hcap_ne : ((splitChar (fun c => decide (c = '-') || decide (c = '_'))
      ((splitChar (fun c => decide (c = ':')) s).getLastD [])).map pyCapitalize).flatten
      ≠ [] := by
    rw [List.any_eq_true] at ha
    obtain ⟨c, hcseg, hcal⟩ := ha
    obtain ⟨w, hw, hcw⟩ := exists_mem_splitChar
      (fun c => decide (c = '-') || decide (c = '_')) _ c hcseg (alnum_ne_sep c hcal)
    intro hnil
    rw [List.flatten_eq_nil_iff] at hnil
    exact pyCapitalize_ne_nil w (List.ne_nil_of_mem hcw)
      (hnil (pyCapitalize w) (List.mem_map_of_mem _ hw))
  simp only [pviNameValidator, displayFormSpec, splitChar_map_dash]
  rw [firstAlnumRun_of_all _ hcap_alnum]
  rw [if_neg (by simpa using hcap_ne)]
  rw [List.filter_eq_self.mpr hcap_alnum]

/-- C4 witness: the display form of `SEQ1:TABLE` is `Table`, as the
specification's projection computes it. -/
theorem c4_display_amended_witness :
    controlPatternb "SEQ1:TABLE".toList = true
      ∧ pviNameValidator (.epicsArg "SEQ1:TABLE".toList)
          = .ok (displayFormSpec "SEQ1:TABLE".toList) :=
  ⟨by decide, c4_display_amended _ (by decide) (by decide)⟩

/-! ### C5: display form converts to nothing -/

/-- C5: constructing a Control-form (`EpicsName`) or Device-form
(`PandAName`) name from a Display-form (`PviName`) value fails with the
unsupported-conversion error (Python `NotImplementedError`, the
specification's `NotSupportedError`); no guessed name is ever returned. -/
theorem c5_display_source_unsupported (s : List Char) :
    epicsNameValidator (.pviArg s) = .error .notSupported
      ∧ pandaNameValidator (.pviArg s) = .error .notSupported :=
  ⟨rfl, rfl⟩

/-! ### C6: the device-form pattern -/

/-- C6: the claimed device-form grammar (alphanumeric segments joined by
`.`) accepts `PCAP1.TRIG`, but the source's `PandAName` pattern
`^[A-Za-z0-9]+$` rejects every string containing a dot — contradicting the
class's own docstring `PandA format, i.e. "." dividers`. -/
theorem c6_device_pattern_bug :
    pandaNameValidator (.strArg "PCAP1.TRIG".toList) = .error .formatError
      ∧ deviceGrammarb "PCAP1.TRIG".toList = true
      ∧ pandaPatternb "PCAP1.TRIG".toList = false := by
  refine ⟨?_, ?_, ?_⟩ <;> decide

/-! ### C7: trim_string_value -/

/-- C7: `trim_string_value` returns values of at most 39 characters
unchanged without logging; longer values are truncated to their first 39
characters with an error-severity log.  The function is total — it never
fails. -/
theorem c7_trim_string_value (value record_name : List Char) :
    (value.length ≤ 39 → trim_string_value value record_name = (value, none))
      ∧ (39 < value.length →
          trim_string_value value record_name = (value.take 39, some .error)
            ∧ (trim_string_value value record_name).1.length = 39) := by
  constructor
  · intro h
    simp [trim_string_value, Nat.not_lt.mpr h]
  · intro h
    refine ⟨by simp [trim_string_value, h], ?_⟩
    simp [trim_string_value, h]
    omega

/-- C7 witness: a 45-character value truncates to its first 39 characters
and logs at error severity. -/
theorem c7_trim_string_value_witness :
    39 < (List.replicate 45 'a').length
      ∧ trim_string_value (List.replicate 45 'a') [] =
          ((List.replicate 45 'a').take 39, some .error) :=
  ⟨by decide, ((c7_trim_string_value (List.replicate 45 'a') []).2 (by decide)).1⟩

/-! ### C8: check_num_labels -/

/-- C8: the label-list length check passes exactly for lists of at most 16
labels and fails (the assertion raises) for every longer list. -/
theorem c8_check_num_labels (labels : List String) (record_name : List Char) :
    (labels.length ≤ 16 → check_num_labels labels record_name = true)
      ∧ (16 < labels.length → check_num_labels labels record_name = false) := by
  constructor
  · intro h
    simp [check_num_labels, h]
  · intro h
    simp [check_num_labels]
    omega

/-- C8 witness: a 17-entry label list fails the check, a 16-entry list
passes. -/
theorem c8_check_num_labels_witness :
    16 < (List.replicate 17 "L").length
      ∧ check_num_labels (List.replicate 17 "L") [] = false
      ∧ check_num_labels (List.replicate 16 "L") [] = true :=
  ⟨by decide, (c8_check_num_labels (List.replicate 17 "L") []).2 (by decide),
    (c8_check_num_labels (List.replicate 16 "L") []).1 (by decide)⟩

/-! ### C9: trim_description -/

/-- C9: `trim_description` returns descriptions of at most 39 characters
unchanged; longer descriptions are truncated to their first 39 characters
and the truncation is logged (at info severity), not rejected. -/
theorem c9_trim_description (d record_name : List Char) :
    (d.length ≤ 39 → trim_description (some d) record_name = (some d, none))
      ∧ (39 < d.length →
          trim_description (some d) record_name = (some (d.take 39), some .info)) := by
  constructor
  · intro h
    simp [trim_description, Nat.not_lt.mpr h]
  · intro h
    simp [trim_description, h]

/-- C9 witness: a 45-character description truncates to 39 characters with
an info log; a 10-character description passes through unchanged. -/
theorem c9_trim_description_witness :
    39 < (List.replicate 45 'd').length
      ∧ trim_description (some (List.replicate 45 'd')) [] =
          (some ((List.replicate 45 'd').take 39), some .info)
      ∧ trim_description (some (List.replicate 10 'd')) [] =
          (some (List.replicate 10 'd'), none) :=
  ⟨by decide, (c9_trim_description (List.replicate 45 'd') []).2 (by decide),
    (c9_trim_description (List.replicate 10 'd') []).1 (by decide)⟩

/-! ### C10: fresh RecordInfo state -/

/-- C10: every freshly constructed `RecordInfo` has `_pending_change =
False` and `_field_info = None`, whatever constructor arguments are
supplied (the constructor has no parameters for them); `labels` defaults to
`None` and `is_in_record` defaults to `True`; and `trim_description` maps a
`None` description to `None` without logging. -/
theorem c10_record_info_fresh_state (R F A C : Type) (dtf : A)
    (labels : Option (List String)) (iir : Bool) (ocf : Option C)
    (record_name : List Char) :
    (RecordInfo.make R F A C dtf labels iir ocf).pending_change = false
      ∧ (RecordInfo.make R F A C dtf labels iir ocf).field_info = none
      ∧ (RecordInfo.make R F A C dtf labels iir ocf).record = none
      ∧ RecordInfo.makeDefault R F A C dtf = RecordInfo.make R F A C dtf none true none
      ∧ trim_description none record_name = (none, none) :=
  ⟨rfl, rfl, rfl, rfl, rfl⟩

/-! ### C2: the table codec round trip

Bit-level foundation: `testBit` characterizations of field extraction, of a
placed code, and of a sum of terms with disjoint bit support. -/

theorem testBit_ge_of_lt (x w j : Nat) (h : x < 2 ^ w) (hj : w ≤ j) :
    x.testBit j = false :=
  Nat.testBit_lt_two_pow (Nat.lt_of_lt_of_le h (Nat.pow_le_pow_right (by omega) hj))

theorem lt_two_pow_of_testBit_lt (n k : Nat)
    (h : ∀ i, n.testBit i = true → i < k) : n < 2 ^ k := by
  induction k generalizing n with
  | zero =>
    have hz : n = 0 := by
      apply Nat.eq_of_testBit_eq
      intro i
      rw [Nat.zero_testBit]
      cases hb : n.testBit i with
      | false => rfl
      | true => exact absurd (h i hb) (by omega)
    rw [hz]
    exact Nat.one_pos
  | succ k ih =>
    have h2 : n / 2 < 2 ^ k := by
      apply ih
      intro i hb
      rw [Nat.testBit_div_two] at hb
      have := h (i + 1) hb
      omega
    have h3 := Nat.div_add_mod n 2
    have h4 : n % 2 < 2 := Nat.mod_lt _ (by omega)
    have h5 : 2 ^ (k + 1) = 2 * 2 ^ k := by
      rw [Nat.pow_succ]
      ring
    omega

theorem testBit_extractBits (lo w n j : Nat) :
    (extractBits lo w n).testBit j = (decide (j < w) && n.testBit (lo + j)) := by
  rw [extractBits, Nat.testBit_mod_two_pow]
  congr 1
  rw [← Nat.shiftRight_eq_div_pow, Nat.testBit_shiftRight]

theorem extractBits_lt (lo w n : Nat) : extractBits lo w n < 2 ^ w :=
  Nat.mod_lt _ (Nat.two_pow_pos w)

theorem testBit_mul_two_pow (c lo k : Nat) :
    (c * 2 ^ lo).testBit k = (decide (lo ≤ k) && c.testBit (k - lo)) := by
  rw [← Nat.shiftLeft_eq, Nat.testBit_shiftLeft]

theorem testBit_add_disjoint (x y : Nat)
    (h : ∀ i, ¬(x.testBit i = true ∧ y.testBit i = true)) :
    ∀ k, (x + y).testBit k = (x.testBit k || y.testBit k) := by
  intro k
  induction k generalizing x y with
  | zero =>
    have h0 := h 0
    simp only [Nat.testBit_zero, decide_eq_true_eq] at h0 ⊢
    rcases Nat.mod_two_eq_zero_or_one x with hx | hx <;>
      rcases Nat.mod_two_eq_zero_or_one y with hy | hy
    · have : (x + y) % 2 = 0 := by omega
      simp [this, hx, hy]
    · have : (x + y) % 2 = 1 := by omega
      simp [this, hx, hy]
    · have : (x + y) % 2 = 1 := by omega
      simp [this, hx, hy]
    · exact absurd ⟨hx, hy⟩ h0
  | succ k ih =>
    have hdiv : (x + y) / 2 = x / 2 + y / 2 := by
      have h0 := h 0
      simp only [Nat.testBit_zero, decide_eq_true_eq] at h0
      omega
    rw [← Nat.testBit_div_two, ← Nat.testBit_div_two x, ← Nat.testBit_div_two y, hdiv]
    apply ih
    intro i
    rw [Nat.testBit_div_two, Nat.testBit_div_two]
    exact h (i + 1)

theorem support_mul_two_pow (c lo w i : Nat) (hc : c < 2 ^ w)
    (h : (c * 2 ^ lo).testBit i = true) : lo ≤ i ∧ i < lo + w := by
  rw [testBit_mul_two_pow] at h
  simp only [Bool.and_eq_true, decide_eq_true_eq] at h
  obtain ⟨h1, h2⟩ := h
  refine ⟨by omega, ?_⟩
  by_contra hge
  rw [testBit_ge_of_lt c w _ hc (by omega)] at h2
  cases h2

theorem testBit_spread (l : List BitSlice) (hok : slicesOk l)
    (hdisj : l.Pairwise sliceDisj) : ∀ k,
    (spread l).testBit k
      = l.any (fun t => decide (t.lo ≤ k) && t.c.testBit (k - t.lo)) := by
  induction l with
  | nil => intro k; simp [spread, Nat.zero_testBit]
  | cons t r ih =>
    intro k
    rw [List.pairwise_cons] at hdisj
    have hokr : slicesOk r := fun b hb => hok b (List.mem_cons_of_mem t hb)
    have hokt : t.c < 2 ^ t.w := hok t (List.mem_cons_self t r)
    have hdsupp : ∀ i,
        ¬((t.c * 2 ^ t.lo).testBit i = true ∧ (spread r).testBit i = true) := by
      intro i hi
      obtain ⟨h1, h2⟩ := hi
      obtain ⟨h1a, h1b⟩ := support_mul_two_pow t.c t.lo t.w i hokt h1
      rw [ih hokr hdisj.2 i, List.any_eq_true] at h2
      obtain ⟨b, hb, hgb⟩ := h2
      simp only [Bool.and_eq_true, decide_eq_true_eq] at hgb
      obtain ⟨hb1, hb2⟩ := hgb
      have hb3 : i - b.lo < b.w := by
        by_contra hge
        rw [testBit_ge_of_lt b.c b.w _ (hokr b hb) (by omega)] at hb2
        cases hb2
      have hd : t.lo + t.w ≤ b.lo ∨ b.lo + b.w ≤ t.lo := hdisj.1 b hb
      omega
    rw [spread, List.any_cons, testBit_add_disjoint _ _ hdsupp k,
      testBit_mul_two_pow, ih hokr hdisj.2 k]

theorem spread_lt (l : List BitSlice) (hok : slicesOk l)
    (hdisj : l.Pairwise sliceDisj) (L : Nat) (hL : ∀ t ∈ l, t.lo + t.w ≤ L) :
    spread l < 2 ^ L := by
  apply lt_two_pow_of_testBit_lt
  intro i hb
  rw [testBit_spread l hok hdisj, List.any_eq_true] at hb
  obtain ⟨t, ht, hgt⟩ := hb
  simp only [Bool.and_eq_true, decide_eq_true_eq] at hgt
  have hiw : i - t.lo < t.w := by
    by_contra hge
    rw [testBit_ge_of_lt t.c t.w _ (hok t ht) (by omega)] at hgt
    exact absurd hgt.2 (by simp)
  have := hL t ht
  omega

theorem extract_spread_middle (pre post : List BitSlice) (t : BitSlice)
    (hok : slicesOk (pre ++ t :: post))
    (hdisj : (pre ++ t :: post).Pairwise sliceDisj) :
    extractBits t.lo t.w (spread (pre ++ t :: post)) = t.c := by
  have hmemt : t ∈ pre ++ t :: post := by simp
  have hokt : t.c < 2 ^ t.w := hok t hmemt
  have hdisj2 := hdisj
  rw [List.pairwise_append, List.pairwise_cons] at hdisj2
  apply Nat.eq_of_testBit_eq
  intro j
  rw [testBit_extractBits]
  by_cases hj : j < t.w
  · rw [decide_eq_true hj, Bool.true_and,
      testBit_spread _ hok hdisj (t.lo + j), List.any_append, List.any_cons]
    have houtside : ∀ b : BitSlice, b ∈ pre ∨ b ∈ post →
        (decide (b.lo ≤ t.lo + j) && b.c.testBit (t.lo + j - b.lo)) = false := by
      intro b hb
      have hbok : b.c < 2 ^ b.w := by
        rcases hb with hb | hb
        · exact hok b (List.mem_append_left _ hb)
        · exact hok b (List.mem_append_right _ (List.mem_cons_of_mem t hb))
      have hbd : t.lo + t.w ≤ b.lo ∨ b.lo + b.w ≤ t.lo := by
        rcases hb with hb | hb
        · rcases hdisj2.2.2 b hb t (List.mem_cons_self t post) with h | h
          · exact Or.inr h
          · exact Or.inl h
        · exact hdisj2.2.1.1 b hb
      cases hble : decide (b.lo ≤ t.lo + j) with
      | false => rw [Bool.false_and]
      | true =>
        rw [Bool.true_and]
        have hble2 : b.lo ≤ t.lo + j := of_decide_eq_true hble
        apply testBit_ge_of_lt b.c b.w _ hbok
        omega
    have hpreF : pre.any
        (fun b => decide (b.lo ≤ t.lo + j) && b.c.testBit (t.lo + j - b.lo)) = false := by
      cases hany : pre.any
          (fun b => decide (b.lo ≤ t.lo + j) && b.c.testBit (t.lo + j - b.lo)) with
      | false => rfl
      | true =>
        rw [List.any_eq_true] at hany
        obtain ⟨b, hb, hgb⟩ := hany
        rw [houtside b (Or.inl hb)] at hgb
        cases hgb
    have hpostF : post.any
        (fun b => decide (b.lo ≤ t.lo + j) && b.c.testBit (t.lo + j - b.lo)) = false := by
      cases hany : post.any
          (fun b => decide (b.lo ≤ t.lo + j) && b.c.testBit (t.lo + j - b.lo)) with
      | false => rfl
      | true =>
        rw [List.any_eq_true] at hany
        obtain ⟨b, hb, hgb⟩ := hany
        rw [houtside b (Or.inr hb)] at hgb
        cases hgb
    rw [hpreF, hpostF, Bool.false_or, Bool.or_false,
      decide_eq_true (by omega : t.lo ≤ t.lo + j), Bool.true_and,
      Nat.add_sub_cancel_left]
  · rw [decide_eq_false hj, Bool.false_and]
    exact (testBit_ge_of_lt t.c t.w j hokt (by omega)).symm

theorem spread_eq_of_extract (l : List BitSlice) (n : Nat)
    (hw : ∀ t ∈ l, t.c = extractBits t.lo t.w n)
    (hdisj : l.Pairwise sliceDisj)
    (hcov : ∀ k, n.testBit k = true → ∃ t ∈ l, t.lo ≤ k ∧ k < t.lo + t.w) :
    spread l = n := by
  have hok : slicesOk l := by
    intro t ht
    rw [hw t ht]
    exact extractBits_lt _ _ _
  apply Nat.eq_of_testBit_eq
  intro k
  rw [testBit_spread l hok hdisj k]
  cases hnk : n.testBit k with
  | true =>
    obtain ⟨t, ht, h1, h2⟩ := hcov k hnk
    rw [List.any_eq_true]
    refine ⟨t, ht, ?_⟩
    simp only [Bool.and_eq_true, decide_eq_true_eq]
    refine ⟨h1, ?_⟩
    rw [hw t ht, testBit_extractBits, decide_eq_true (by omega : k - t.lo < t.w),
      Bool.true_and]
    have he : t.lo + (k - t.lo) = k := by omega
    rw [he, hnk]
  | false =>
    cases hany : l.any (fun t => decide (t.lo ≤ k) && t.c.testBit (k - t.lo)) with
    | false => rfl
    | true =>
      rw [List.any_eq_true] at hany
      obtain ⟨t, ht, hgt⟩ := hany
      simp only [Bool.and_eq_true, decide_eq_true_eq] at hgt
      obtain ⟨h1, h2⟩ := hgt
      rw [hw t ht, testBit_extractBits] at h2
      simp only [Bool.and_eq_true, decide_eq_true_eq] at h2
      obtain ⟨h2a, h2b⟩ := h2
      have he : t.lo + (k - t.lo) = k := by omega
      rw [he, hnk] at h2b
      cases h2b

/-! Word-list / row-value conversions. -/

theorem length_natToWords (Wd nw : Nat) : ∀ n, (natToWords Wd nw n).length = nw := by
  induction nw with
  | zero => intro n; rfl
  | succ k ih => intro n; rw [natToWords, List.length_cons, ih]

theorem natToWords_lt (Wd nw : Nat) : ∀ n, ∀ w ∈ natToWords Wd nw n, w < 2 ^ Wd := by
  induction nw with
  | zero => intro n w hw; cases hw
  | succ k ih =>
    intro n w hw
    rw [natToWords] at hw
    cases hw with
    | head => exact Nat.mod_lt _ (Nat.two_pow_pos Wd)
    | tail _ h' => exact ih _ w h'

theorem wordsToNat_natToWords (Wd : Nat) : ∀ (nw n : Nat), n < 2 ^ (Wd * nw) →
    wordsToNat Wd (natToWords Wd nw n) = n := by
  intro nw
  induction nw with
  | zero =>
    intro n h
    rw [Nat.mul_zero, pow_zero] at h
    rw [natToWords, wordsToNat]
    omega
  | succ k ih =>
    intro n h
    rw [natToWords, wordsToNat]
    have hdiv : n / 2 ^ Wd < 2 ^ (Wd * k) := by
      rw [Nat.div_lt_iff_lt_mul (Nat.two_pow_pos Wd)]
      calc n < 2 ^ (Wd * (k + 1)) := h
        _ = 2 ^ (Wd * k) * 2 ^ Wd := by rw [← pow_add, Nat.mul_succ]
    rw [ih _ hdiv]
    exact Nat.mod_add_div n (2 ^ Wd)

theorem natToWords_wordsToNat (Wd : Nat) (ws : List Nat) (hlt : ∀ w ∈ ws, w < 2 ^ Wd) :
    natToWords Wd ws.length (wordsToNat Wd ws) = ws := by
  induction ws with
  | nil => rfl
  | cons w rest ih =>
    rw [wordsToNat, List.length_cons, natToWords]
    have hw : w < 2 ^ Wd := hlt w (List.mem_cons_self _ _)
    have hmod : (w + 2 ^ Wd * wordsToNat Wd rest) % 2 ^ Wd = w := by
      rw [Nat.add_mul_mod_self_left, Nat.mod_eq_of_lt hw]
    have hdiv : (w + 2 ^ Wd * wordsToNat Wd rest) / 2 ^ Wd = wordsToNat Wd rest := by
      rw [Nat.add_mul_div_left _ _ (Nat.two_pow_pos Wd), Nat.div_eq_of_lt hw,
        Nat.zero_add]
    rw [hmod, hdiv, ih (fun w' hw' => hlt w' (List.mem_cons_of_mem _ hw'))]

theorem wordsToNat_lt (Wd : Nat) (ws : List Nat) (hlt : ∀ w ∈ ws, w < 2 ^ Wd) :
    wordsToNat Wd ws < 2 ^ (Wd * ws.length) := by
  induction ws with
  | nil =>
    rw [wordsToNat, List.length_nil, Nat.mul_zero, pow_zero]
    omega
  | cons w rest ih =>
    rw [wordsToNat, List.length_cons]
    have h1 : w < 2 ^ Wd := hlt w (List.mem_cons_self _ _)
    have h2 := ih (fun w' hw' => hlt w' (List.mem_cons_of_mem _ hw'))
    have h3 : 2 ^ (Wd * (rest.length + 1)) = 2 ^ Wd * 2 ^ (Wd * rest.length) := by
      rw [Nat.mul_succ, pow_add]
      ring
    have h4 : 2 ^ Wd * wordsToNat Wd rest + 2 ^ Wd ≤
        2 ^ Wd * 2 ^ (Wd * rest.length) := by
      calc 2 ^ Wd * wordsToNat Wd rest + 2 ^ Wd
          = 2 ^ Wd * (wordsToNat Wd rest + 1) := by ring
        _ ≤ 2 ^ Wd * 2 ^ (Wd * rest.length) := Nat.mul_le_mul_left _ (by omega)
    omega

theorem le_rowWidth (fields : List TableFieldDetails) (f : TableFieldDetails)
    (hf : f ∈ fields) : f.bit_high + 1 ≤ rowWidth fields := by
  rw [rowWidth]
  have : f.bit_high ≤ (fields.map (fun f => f.bit_high)).foldr max 0 := by
    induction fields with
    | nil => cases hf
    | cons a as ih =>
      rw [List.map_cons, List.foldr_cons]
      cases hf with
      | head => exact le_max_left _ _
      | tail _ h' => exact le_trans (ih h') (le_max_right _ _)
  omega

theorem rowWidth_le_mul (Wd : Nat) (fields : List TableFieldDetails) (hW : 0 < Wd) :
    rowWidth fields ≤ Wd * wordsPerRow Wd fields := by
  rw [wordsPerRow]
  have h1 := Nat.div_add_mod (rowWidth fields + Wd - 1) Wd
  have h2 : (rowWidth fields + Wd - 1) % Wd < Wd := Nat.mod_lt _ hW
  omega

/-! Per-field code/value round trips. -/

theorem encodeField_sound (f : TableFieldDetails) (v : TableValue)
    (hwf : fieldWFb f = true) (hv : validValueb f v = true) :
    ∃ c, encodeField f v = some c ∧ c < 2 ^ fieldWidth f
      ∧ decodeField f c = some v := by
  obtain ⟨nm, st, lo, hi, lbls, desc⟩ := f
  cases st with
  | uint =>
    cases v with
    | label s => simp [validValueb] at hv
    | num n =>
      simp only [validValueb, Bool.and_eq_true, decide_eq_true_eq] at hv
      obtain ⟨h0, h1⟩ := hv
      have hcast : (((2 : Nat) ^ fieldWidth ⟨nm, .uint, lo, hi, lbls, desc⟩ : Nat) : Int)
          = (2 : Int) ^ fieldWidth ⟨nm, .uint, lo, hi, lbls, desc⟩ := by
        push_cast
        rfl
      refine ⟨n.toNat, ?_, by omega, ?_⟩
      · simp only [encodeField]
        rw [if_pos ⟨h0, h1⟩]
      · simp only [decodeField, Option.some.injEq, TableValue.num.injEq]
        omega
  | int =>
    cases v with
    | label s => simp [validValueb] at hv
    | num n =>
      simp only [validValueb, Bool.and_eq_true, decide_eq_true_eq] at hv
      obtain ⟨h0, h1⟩ := hv
      have hw1 : fieldWidth ⟨nm, .int, lo, hi, lbls, desc⟩ - 1 + 1
          = fieldWidth ⟨nm, .int, lo, hi, lbls, desc⟩ := by
        rw [fieldWidth]
        omega
      have hsplit : (2 : Int) ^ fieldWidth ⟨nm, .int, lo, hi, lbls, desc⟩
          = 2 * 2 ^ (fieldWidth ⟨nm, .int, lo, hi, lbls, desc⟩ - 1) := by
        conv_lhs => rw [← hw1]
        rw [pow_succ]
        ring
      have hcastW : (((2 : Nat) ^ fieldWidth ⟨nm, .int, lo, hi, lbls, desc⟩ : Nat) : Int)
          = (2 : Int) ^ fieldWidth ⟨nm, .int, lo, hi, lbls, desc⟩ := by
        push_cast
        rfl
      have hcastW1 :
          (((2 : Nat) ^ (fieldWidth ⟨nm, .int, lo, hi, lbls, desc⟩ - 1) : Nat) : Int)
          = (2 : Int) ^ (fieldWidth ⟨nm, .int, lo, hi, lbls, desc⟩ - 1) := by
        push_cast
        rfl
      have hMpos : (0 : Int) < 2 ^ fieldWidth ⟨nm, .int, lo, hi, lbls, desc⟩ := by
        positivity
      by_cases hn : 0 ≤ n
      · have hee : n % (2 : Int) ^ fieldWidth ⟨nm, .int, lo, hi, lbls, desc⟩ = n :=
          Int.emod_eq_of_lt hn (by omega)
        refine ⟨n.toNat, ?_, by omega, ?_⟩
        · simp only [encodeField]
          rw [if_pos ⟨h0, h1⟩, hee]
        · simp only [decodeField, Option.some.injEq, TableValue.num.injEq]
          rw [if_neg (by omega)]
          omega
      · have hee : n % (2 : Int) ^ fieldWidth ⟨nm, .int, lo, hi, lbls, desc⟩
            = n + 2 ^ fieldWidth ⟨nm, .int, lo, hi, lbls, desc⟩ := by
          have h2 : (n + 2 ^ fieldWidth ⟨nm, .int, lo, hi, lbls, desc⟩ * 1)
              % (2 : Int) ^ fieldWidth ⟨nm, .int, lo, hi, lbls, desc⟩
              = n % (2 : Int) ^ fieldWidth ⟨nm, .int, lo, hi, lbls, desc⟩ :=
            Int.add_mul_emod_self_left n
              ((2 : Int) ^ fieldWidth ⟨nm, .int, lo, hi, lbls, desc⟩) 1
          rw [mul_one] at h2
          rw [← h2]
          exact Int.emod_eq_of_lt (by omega) (by omega)
        refine ⟨(n + 2 ^ fieldWidth ⟨nm, .int, lo, hi, lbls, desc⟩).toNat, ?_, by omega,
          ?_⟩
        · simp only [encodeField]
          rw [if_pos ⟨h0, h1⟩, hee]
        · simp only [decodeField, Option.some.injEq, TableValue.num.injEq]
          rw [if_pos (by omega)]
          omega
  | enum =>
    cases v with
    | num n => simp [validValueb] at hv
    | label s =>
      cases lbls with
      | none => simp [validValueb] at hv
      | some ls =>
        simp only [validValueb, decide_eq_true_eq] at hv
        simp only [fieldWFb, Bool.and_eq_true, decide_eq_true_eq] at hwf
        obtain ⟨hlohi, ⟨h16, hfit⟩, hnd⟩ := hwf
        have hlt : ls.indexOf s < ls.length := List.indexOf_lt_length.mpr hv
        refine ⟨ls.indexOf s, ?_, by omega, ?_⟩
        · simp only [encodeField]
          rw [if_pos hv]
        · simp only [decodeField]
          rw [dif_pos hlt]
          simp [List.indexOf_get]

theorem decodeField_sound (f : TableFieldDetails) (c : Nat)
    (hwf : fieldWFb f = true) (hc : c < 2 ^ fieldWidth f)
    (henum : ∀ ls, f.labels = some ls → c < ls.length) :
    ∃ v, decodeField f c = some v ∧ encodeField f v = some c := by
  obtain ⟨nm, st, lo, hi, lbls, desc⟩ := f
  cases st with
  | uint =>
    have hcast : (((2 : Nat) ^ fieldWidth ⟨nm, .uint, lo, hi, lbls, desc⟩ : Nat) : Int)
        = (2 : Int) ^ fieldWidth ⟨nm, .uint, lo, hi, lbls, desc⟩ := by
      push_cast
      rfl
    refine ⟨.num (c : Int), by simp [decodeField], ?_⟩
    simp only [encodeField]
    rw [if_pos ⟨by omega, by omega⟩]
    simp only [Option.some.injEq]
    omega
  | int =>
    have hw1 : fieldWidth ⟨nm, .int, lo, hi, lbls, desc⟩ - 1 + 1
        = fieldWidth ⟨nm, .int, lo, hi, lbls, desc⟩ := by
      rw [fieldWidth]
      omega
    have hsplit : (2 : Int) ^ fieldWidth ⟨nm, .int, lo, hi, lbls, desc⟩
        = 2 * 2 ^ (fieldWidth ⟨nm, .int, lo, hi, lbls, desc⟩ - 1) := by
      conv_lhs => rw [← hw1]
      rw [pow_succ]
      ring
    have hsplitN : (2 : Nat) ^ fieldWidth ⟨nm, .int, lo, hi, lbls, desc⟩
        = 2 * 2 ^ (fieldWidth ⟨nm, .int, lo, hi, lbls, desc⟩ - 1) := by
      conv_lhs => rw [← hw1]
      rw [pow_succ]
      ring
    have hcastW : (((2 : Nat) ^ fieldWidth ⟨nm, .int, lo, hi, lbls, desc⟩ : Nat) : Int)
        = (2 : Int) ^ fieldWidth ⟨nm, .int, lo, hi, lbls, desc⟩ := by
      push_cast
      rfl
    have hcastW1 :
        (((2 : Nat) ^ (fieldWidth ⟨nm, .int, lo, hi, lbls, desc⟩ - 1) : Nat) : Int)
        = (2 : Int) ^ (fieldWidth ⟨nm, .int, lo, hi, lbls, desc⟩ - 1) := by
      push_cast
      rfl
    by_cases hcs : 2 ^ (fieldWidth ⟨nm, .int, lo, hi, lbls, desc⟩ - 1) ≤ c
    · refine ⟨.num ((c : Int) - 2 ^ fieldWidth ⟨nm, .int, lo, hi, lbls, desc⟩), ?_, ?_⟩
      · simp only [decodeField, Option.some.injEq, TableValue.num.injEq]
        rw [if_pos hcs]
      · simp only [encodeField, Option.some.injEq]
        rw [if_pos ⟨by omega, by omega⟩]
        have hmod : ((c : Int) - 2 ^ fieldWidth ⟨nm, .int, lo, hi, lbls, desc⟩)
            % (2 : Int) ^ fieldWidth ⟨nm, .int, lo, hi, lbls, desc⟩
            = (c : Int) % (2 : Int) ^ fieldWidth ⟨nm, .int, lo, hi, lbls, desc⟩ := by
          have h2 : (((c : Int) - 2 ^ fieldWidth ⟨nm, .int, lo, hi, lbls, desc⟩)
              + 2 ^ fieldWidth ⟨nm, .int, lo, hi, lbls, desc⟩ * 1)
              % (2 : Int) ^ fieldWidth ⟨nm, .int, lo, hi, lbls, desc⟩
              = ((c : Int) - 2 ^ fieldWidth ⟨nm, .int, lo, hi, lbls, desc⟩)
              % (2 : Int) ^ fieldWidth ⟨nm, .int, lo, hi, lbls, desc⟩ :=
            Int.add_mul_emod_self_left
              ((c : Int) - 2 ^ fieldWidth ⟨nm, .int, lo, hi, lbls, desc⟩)
              ((2 : Int) ^ fieldWidth ⟨nm, .int, lo, hi, lbls, desc⟩) 1
          rw [mul_one] at h2
          rw [← h2]
          congr 1
          ring
        rw [hmod, Int.emod_eq_of_lt (by omega) (by omega)]
        simp only [Option.some.injEq]
        omega
    · refine ⟨.num (c : Int), ?_, ?_⟩
      · simp only [decodeField, Option.some.injEq, TableValue.num.injEq]
        rw [if_neg hcs]
      · simp only [encodeField]
        rw [if_pos ⟨by omega, by omega⟩]
        rw [Int.emod_eq_of_lt (by omega) (by omega)]
        simp only [Option.some.injEq]
        omega
  | enum =>
    cases lbls with
    | none => simp [fieldWFb] at hwf
    | some ls =>
      simp only [fieldWFb, Bool.and_eq_true, decide_eq_true_eq] at hwf
      obtain ⟨hlohi, ⟨h16, hfit⟩, hnd⟩ := hwf
      have hlt : c < ls.length := henum ls rfl
      refine ⟨.label (ls.get ⟨c, hlt⟩), ?_, ?_⟩
      · simp only [decodeField]
        rw [dif_pos hlt]
      · simp only [encodeField, Option.some.injEq]
        rw [if_pos (List.get_mem ls c hlt)]
        have := List.get_indexOf hnd ⟨c, hlt⟩
        simpa using this

/-! Row-level round trips. -/

theorem fieldWFb_le (f : TableFieldDetails) (h : fieldWFb f = true) :
    f.bit_low ≤ f.bit_high := by
  rw [fieldWFb, Bool.and_eq_true] at h
  exact of_decide_eq_true h.1

theorem fieldWFb_labels_enum (f : TableFieldDetails) (ls : List String)
    (h : fieldWFb f = true) (hl : f.labels = some ls) : f.subtype = .enum := by
  obtain ⟨nm, st, lo, hi, lbls, desc⟩ := f
  simp only at hl
  subst hl
  cases st with
  | uint => simp [fieldWFb] at h
  | int => simp [fieldWFb] at h
  | enum => rfl

theorem pairwiseDisjb_pairwise (fields : List TableFieldDetails)
    (h : pairwiseDisjb fields = true) :
    fields.Pairwise (fun f g => f.bit_high < g.bit_low ∨ g.bit_high < f.bit_low) := by
  induction fields with
  | nil => exact List.Pairwise.nil
  | cons f fs ih =>
    rw [pairwiseDisjb, Bool.and_eq_true, List.all_eq_true] at h
    refine List.Pairwise.cons ?_ (ih h.2)
    intro g hg
    have hd := h.1 g hg
    rw [disjb, Bool.or_eq_true, decide_eq_true_eq, decide_eq_true_eq] at hd
    exact hd

theorem length_fieldSlices (fields : List TableFieldDetails) (codes : List Nat) :
    (fieldSlices fields codes).length = min fields.length codes.length := by
  rw [fieldSlices, List.length_zipWith]

theorem getElem_fieldSlices (fields : List TableFieldDetails) (codes : List Nat)
    (i : Nat) (hif : i < fields.length) (hic : i < codes.length)
    (hs : i < (fieldSlices fields codes).length) :
    (fieldSlices fields codes)[i]
      = ⟨fields[i].bit_low, fieldWidth fields[i],
          codes[i]⟩ := by
  simp only [fieldSlices] at hs ⊢
  rw [List.getElem_zipWith]

theorem pairwise_fieldSlices (fields : List TableFieldDetails) (codes : List Nat)
    (hd : fields.Pairwise (fun f g => f.bit_high < g.bit_low ∨ g.bit_high < f.bit_low))
    (hwfa : ∀ f ∈ fields, f.bit_low ≤ f.bit_high) :
    (fieldSlices fields codes).Pairwise sliceDisj := by
  rw [List.pairwise_iff_getElem] at hd ⊢
  intro i j hi hj hij
  have hi' := hi
  have hj' := hj
  rw [length_fieldSlices] at hi' hj'
  have hif : i < fields.length := by omega
  have hjf : j < fields.length := by omega
  have hdij := hd i j hif hjf hij
  have h1 : fields[i].bit_low ≤ fields[i].bit_high := hwfa _ (List.getElem_mem _)
  have h2 : fields[j].bit_low ≤ fields[j].bit_high := hwfa _ (List.getElem_mem _)
  rw [getElem_fieldSlices fields codes i hif (by omega) hi,
    getElem_fieldSlices fields codes j hjf (by omega) hj]
  rcases hdij with hcase | hcase
  · exact Or.inl (by
      show fields[i].bit_low + fieldWidth fields[i] ≤ fields[j].bit_low
      rw [fieldWidth]
      omega)
  · exact Or.inr (by
      show fields[j].bit_low + fieldWidth fields[j] ≤ fields[i].bit_low
      rw [fieldWidth]
      omega)

theorem spreadRow_eq_spread (fields : List TableFieldDetails) :
    ∀ codes, spreadRow fields codes = spread (fieldSlices fields codes) := by
  induction fields with
  | nil => intro codes; cases codes <;> rfl
  | cons f fs ih =>
    intro codes
    cases codes with
    | nil => rfl
    | cons c cs =>
      show c * 2 ^ f.bit_low + spreadRow fs cs = spread (fieldSlices (f :: fs) (c :: cs))
      rw [ih cs]
      rfl

theorem encodeRow_sound (fields : List TableFieldDetails) :
    ∀ vs : List TableValue,
    (∀ f ∈ fields, fieldWFb f = true) →
    vs.length = fields.length →
    (∀ i (hif : i < fields.length) (hiv : i < vs.length),
      validValueb fields[i] vs[i] = true) →
    ∃ codes, encodeRow fields vs = some codes ∧ codes.length = fields.length
      ∧ ∀ i (hif : i < fields.length) (hic : i < codes.length) (hiv : i < vs.length),
          codes[i] < 2 ^ fieldWidth fields[i]
            ∧ decodeField fields[i] codes[i] = some vs[i] := by
  induction fields with
  | nil =>
    intro vs _ hlen _
    rw [List.length_nil] at hlen
    have hv : vs = [] := List.eq_nil_of_length_eq_zero hlen
    subst hv
    exact ⟨[], rfl, rfl, fun i hif => absurd hif (by simp)⟩
  | cons f fs ih =>
    intro vs hwf hlen hval
    cases vs with
    | nil => simp at hlen
    | cons v vtl =>
      have hv0 : validValueb f v = true := by
        have := hval 0 (by simp) (by simp)
        simpa using this
      obtain ⟨c, hc1, hc2, hc3⟩ :=
        encodeField_sound f v (hwf f (List.mem_cons_self _ _)) hv0
      have hlen' : vtl.length = fs.length := by simpa using hlen
      obtain ⟨codes, h1, h2, h3⟩ := ih vtl
        (fun g hg => hwf g (List.mem_cons_of_mem f hg)) hlen'
        (fun i hif hiv => by
          have := hval (i + 1) (by simpa using hif) (by simpa using hiv)
          simpa using this)
      refine ⟨c :: codes, ?_, by simp [h2], ?_⟩
      · rw [encodeRow, hc1, h1]
      · intro i hif hic hiv
        cases i with
        | zero => simpa using ⟨hc2, hc3⟩
        | succ j =>
          have := h3 j (by simpa using hif) (by simpa using hic) (by simpa using hiv)
          simpa using this

theorem decodeRow_sound (fields : List TableFieldDetails) :
    ∀ codes : List Nat,
    codes.length = fields.length →
    (∀ i (hif : i < fields.length) (hic : i < codes.length),
      ∃ v, decodeField fields[i] codes[i] = some v
        ∧ encodeField fields[i] v = some codes[i]) →
    ∃ vs, decodeRow fields codes = some vs ∧ vs.length = fields.length
      ∧ encodeRow fields vs = some codes := by
  induction fields with
  | nil =>
    intro codes hlen _
    rw [List.length_nil] at hlen
    have hv : codes = [] := List.eq_nil_of_length_eq_zero hlen
    subst hv
    exact ⟨[], rfl, rfl, rfl⟩
  | cons f fs ih =>
    intro codes hlen hpt
    cases codes with
    | nil => simp at hlen
    | cons c ctl =>
      obtain ⟨v, hv1, hv2⟩ : ∃ v, decodeField f c = some v ∧ encodeField f v = some c := by
        have := hpt 0 (by simp) (by simp)
        simpa using this
      obtain ⟨vs, h1, h2, h3⟩ := ih ctl (by simpa using hlen)
        (fun i hif hic => by
          have := hpt (i + 1) (by simpa using hif) (by simpa using hic)
          simpa using this)
      refine ⟨v :: vs, ?_, by simp [h2], ?_⟩
      · rw [decodeRow, hv1, h1]
      · rw [encodeRow, hv2, h3]

theorem decodeRow_of_pointwise (fields : List TableFieldDetails) :
    ∀ (codes : List Nat) (vs : List TableValue),
    codes.length = fields.length →
    vs.length = fields.length →
    (∀ i (hif : i < fields.length) (hic : i < codes.length) (hiv : i < vs.length),
      decodeField fields[i] codes[i] = some vs[i]) →
    decodeRow fields codes = some vs := by
  induction fields with
  | nil =>
    intro codes vs hlen hlen2 _
    rw [List.length_nil] at hlen hlen2
    rw [List.eq_nil_of_length_eq_zero hlen, List.eq_nil_of_length_eq_zero hlen2]
    rfl
  | cons f fs ih =>
    intro codes vs hlen hlen2 hpt
    cases codes with
    | nil => simp at hlen
    | cons c ctl =>
      cases vs with
      | nil => simp at hlen2
      | cons v vtl =>
        have h0 : decodeField f c = some v := by
          have := hpt 0 (by simp) (by simp) (by simp)
          simpa using this
        have hrest := ih ctl vtl (by simpa using hlen) (by simpa using hlen2)
          (fun i hif hic hiv => by
            have := hpt (i + 1) (by simpa using hif) (by simpa using hic)
              (by simpa using hiv)
            simpa using this)
        rw [decodeRow, h0, hrest]

theorem packRow_unpackRow_nat (fields : List TableFieldDetails) (vs : List TableValue)
    (hmeta : metadataWFb fields = true)
    (hlen : vs.length = fields.length)
    (hval : ∀ i (hif : i < fields.length) (hiv : i < vs.length),
      validValueb fields[i] vs[i] = true) :
    ∃ n, packRowNat fields vs = some n ∧ n < 2 ^ rowWidth fields
      ∧ unpackRowNat fields n = some vs := by
  simp only [metadataWFb, Bool.and_eq_true, List.all_eq_true] at hmeta
  obtain ⟨⟨hne, hallwf⟩, hpw⟩ := hmeta
  obtain ⟨codes, hcodes, hclen, hcf⟩ := encodeRow_sound fields vs hallwf hlen hval
  have hslen : (fieldSlices fields codes).length = fields.length := by
    rw [length_fieldSlices]
    omega
  have hok : slicesOk (fieldSlices fields codes) := by
    intro t ht
    rw [List.mem_iff_getElem] at ht
    obtain ⟨i, hi, rfl⟩ := ht
    rw [getElem_fieldSlices fields codes i (by omega) (by omega) hi]
    exact (hcf i (by omega) (by omega) (by omega)).1
  have hdisj : (fieldSlices fields codes).Pairwise sliceDisj :=
    pairwise_fieldSlices fields codes (pairwiseDisjb_pairwise fields hpw)
      (fun f hf => fieldWFb_le f (hallwf f hf))
  have hbound : ∀ t ∈ fieldSlices fields codes, t.lo + t.w ≤ rowWidth fields := by
    intro t ht
    rw [List.mem_iff_getElem] at ht
    obtain ⟨i, hi, rfl⟩ := ht
    rw [getElem_fieldSlices fields codes i (by omega) (by omega) hi]
    have hle := le_rowWidth fields fields[i] (List.getElem_mem _)
    have hlh := fieldWFb_le fields[i] (hallwf _ (List.getElem_mem _))
    show fields[i].bit_low + fieldWidth fields[i] ≤ rowWidth fields
    rw [fieldWidth]
    omega
  have hn : packRowNat fields vs = some (spreadRow fields codes) := by
    simp only [packRowNat, hcodes, Option.map_some']
  refine ⟨spreadRow fields codes, hn, ?_, ?_⟩
  · rw [spreadRow_eq_spread]
    exact spread_lt _ hok hdisj _ hbound
  · simp only [unpackRowNat]
    rw [spreadRow_eq_spread]
    have hext : extractRow fields (spread (fieldSlices fields codes)) = codes := by
      apply List.ext_getElem
      · simp only [extractRow, List.length_map]
        omega
      · intro i h1 h2
        have hif : i < fields.length := by
          simp only [extractRow, List.length_map] at h1
          exact h1
        have hic : i < codes.length := by omega
        have his : i < (fieldSlices fields codes).length := by omega
        simp only [extractRow, List.getElem_map]
        have hdecomp : fieldSlices fields codes
            = (fieldSlices fields codes).take i
              ++ (fieldSlices fields codes)[i]
                :: (fieldSlices fields codes).drop (i + 1) := by
          conv_lhs => rw [← List.take_append_drop i (fieldSlices fields codes)]
          rw [List.drop_eq_getElem_cons his]
        have hmid := extract_spread_middle
          ((fieldSlices fields codes).take i)
          ((fieldSlices fields codes).drop (i + 1))
          ((fieldSlices fields codes)[i])
          (by rw [← hdecomp]; exact hok)
          (by rw [← hdecomp]; exact hdisj)
        rw [← hdecomp, getElem_fieldSlices fields codes i hif hic his] at hmid
        exact hmid
    rw [hext]
    exact decodeRow_of_pointwise fields codes vs hclen hlen
      (fun i hif hic hiv => (hcf i hif hic hiv).2)

theorem unpackRow_packRow_nat (fields : List TableFieldDetails) (n : Nat)
    (hmeta : metadataWFb fields = true)
    (henum : ∀ i (hif : i < fields.length), ∀ ls, fields[i].labels = some ls →
      extractBits fields[i].bit_low (fieldWidth fields[i]) n < ls.length)
    (hcov : ∀ k, n.testBit k = true → coveredb fields k = true) :
    ∃ vs, unpackRowNat fields n = some vs ∧ vs.length = fields.length
      ∧ packRowNat fields vs = some n := by
  simp only [metadataWFb, Bool.and_eq_true, List.all_eq_true] at hmeta
  obtain ⟨⟨hne, hallwf⟩, hpw⟩ := hmeta
  have hclen : (extractRow fields n).length = fields.length := by
    simp [extractRow]
  obtain ⟨vs, hdec, hvlen, henc⟩ := decodeRow_sound fields (extractRow fields n) hclen
    (fun i hif hic => by
      have hei : (extractRow fields n)[i]
          = extractBits fields[i].bit_low (fieldWidth fields[i]) n := by
        simp [extractRow]
      rw [hei]
      exact decodeField_sound fields[i] _ (hallwf _ (List.getElem_mem _))
        (extractBits_lt _ _ _) (henum i hif))
  refine ⟨vs, ?_, hvlen, ?_⟩
  · simp only [unpackRowNat]
    exact hdec
  · simp only [packRowNat, henc, Option.map_some']
    congr 1
    rw [spreadRow_eq_spread]
    apply spread_eq_of_extract
    · intro t ht
      rw [List.mem_iff_getElem] at ht
      obtain ⟨i, hi, rfl⟩ := ht
      have hif : i < fields.length := by
        rw [length_fieldSlices, hclen] at hi
        omega
      have hic : i < (extractRow fields n).length := by omega
      rw [getElem_fieldSlices fields _ i hif hic hi]
      show (extractRow fields n)[i]
        = extractBits fields[i].bit_low (fieldWidth fields[i]) n
      simp [extractRow]
    · exact pairwise_fieldSlices fields _ (pairwiseDisjb_pairwise fields hpw)
        (fun f hf => fieldWFb_le f (hallwf f hf))
    · intro k hk
      have hcb := hcov k hk
      rw [coveredb, List.any_eq_true] at hcb
      obtain ⟨f, hfmem, hfk⟩ := hcb
      simp only [Bool.and_eq_true, decide_eq_true_eq] at hfk
      rw [List.mem_iff_getElem] at hfmem
      obtain ⟨i, hif, rfl⟩ := hfmem
      have his : i < (fieldSlices fields (extractRow fields n)).length := by
        rw [length_fieldSlices, hclen]
        omega
      refine ⟨(fieldSlices fields (extractRow fields n))[i], List.getElem_mem _, ?_⟩
      rw [getElem_fieldSlices fields _ i hif (by omega) his]
      show fields[i].bit_low ≤ k ∧ k < fields[i].bit_low + fieldWidth fields[i]
      have hlh := fieldWFb_le fields[i] (hallwf _ (List.getElem_mem _))
      rw [fieldWidth]
      omega

/-! Wire-row round trips. -/

theorem packRowWords_sound (Wd : Nat) (fields : List TableFieldDetails)
    (vs : List TableValue) (hW : 0 < Wd) (hmeta : metadataWFb fields = true)
    (hlen : vs.length = fields.length)
    (hval : ∀ i (hif : i < fields.length) (hiv : i < vs.length),
      validValueb fields[i] vs[i] = true) :
    ∃ ws, packRowWords Wd fields vs = some ws
      ∧ unpackRowWords Wd fields ws = some vs := by
  obtain ⟨n, hp, hlt, hu⟩ := packRow_unpackRow_nat fields vs hmeta hlen hval
  refine ⟨natToWords Wd (wordsPerRow Wd fields) n, ?_, ?_⟩
  · simp only [packRowWords, hp, Option.map_some']
  · simp only [unpackRowWords]
    rw [if_pos ⟨length_natToWords Wd _ n, natToWords_lt Wd _ n⟩]
    have hnlt : n < 2 ^ (Wd * wordsPerRow Wd fields) :=
      lt_of_lt_of_le hlt (Nat.pow_le_pow_right (by omega) (rowWidth_le_mul Wd fields hW))
    rw [wordsToNat_natToWords Wd _ n hnlt]
    exact hu

theorem unpackRowWords_sound (Wd : Nat) (fields : List TableFieldDetails)
    (ws : List Nat) (hW : 0 < Wd) (hmeta : metadataWFb fields = true)
    (hrow : rowWordsWFb Wd fields ws = true) :
    ∃ vs, unpackRowWords Wd fields ws = some vs ∧ vs.length = fields.length
      ∧ packRowWords Wd fields vs = some ws := by
  simp only [rowWordsWFb, Bool.and_eq_true, List.all_eq_true, decide_eq_true_eq] at hrow
  obtain ⟨⟨⟨hlen, hbound⟩, hcovb⟩, henumb⟩ := hrow
  have hawf : ∀ f ∈ fields, fieldWFb f = true := by
    have h := hmeta
    simp only [metadataWFb, Bool.and_eq_true, List.all_eq_true] at h
    exact h.1.2
  have hn : wordsToNat Wd ws < 2 ^ (Wd * wordsPerRow Wd fields) := by
    have h := wordsToNat_lt Wd ws hbound
    rw [hlen] at h
    exact h
  obtain ⟨vs, hu, hvlen, hp⟩ := unpackRow_packRow_nat fields (wordsToNat Wd ws) hmeta
    (fun i hif ls hls => by
      have hf := henumb fields[i] (List.getElem_mem _)
      have hen : fields[i].subtype = .enum :=
        fieldWFb_labels_enum fields[i] ls (hawf _ (List.getElem_mem _)) hls
      rw [hen, hls] at hf
      exact of_decide_eq_true hf)
    (fun k hk => by
      by_cases hklt : k < Wd * wordsPerRow Wd fields
      · have h := hcovb k (by rw [List.mem_range]; exact hklt)
        rw [Bool.or_eq_true] at h
        rcases h with h | h
        · rw [Bool.not_eq_true'] at h
          rw [h] at hk
          cases hk
        · exact h
      · rw [testBit_ge_of_lt _ _ _ hn (by omega)] at hk
        cases hk)
  refine ⟨vs, ?_, hvlen, ?_⟩
  · simp only [unpackRowWords]
    rw [if_pos ⟨hlen, hbound⟩]
    exact hu
  · simp only [packRowWords, hp, Option.map_some']
    congr 1
    rw [hlen.symm]
    exact natToWords_wordsToNat Wd ws hbound

/-! Whole-table round trips. -/

theorem packRows_sound (Wd : Nat) (fields : List TableFieldDetails) (hW : 0 < Wd)
    (hmeta : metadataWFb fields = true) :
    ∀ rows : List (List TableValue),
    (∀ row ∈ rows, row.length = fields.length
      ∧ ∀ i (hif : i < fields.length) (hir : i < row.length),
          validValueb fields[i] row[i] = true) →
    ∃ wr, packRows Wd fields rows = some wr
      ∧ unpackRows Wd fields wr = some rows := by
  intro rows
  induction rows with
  | nil => intro _; exact ⟨[], rfl, rfl⟩
  | cons row rest ih =>
    intro h
    obtain ⟨hlen, hval⟩ := h row (List.mem_cons_self _ _)
    obtain ⟨ws, hws1, hws2⟩ := packRowWords_sound Wd fields row hW hmeta hlen hval
    obtain ⟨wr, hr1, hr2⟩ := ih (fun r hr => h r (List.mem_cons_of_mem _ hr))
    refine ⟨ws :: wr, ?_, ?_⟩
    · rw [packRows, hws1, hr1]
    · rw [unpackRows, hws2, hr2]

theorem unpackRows_sound (Wd : Nat) (fields : List TableFieldDetails) (hW : 0 < Wd)
    (hmeta : metadataWFb fields = true) :
    ∀ wordRows : List (List Nat),
    (∀ ws ∈ wordRows, rowWordsWFb Wd fields ws = true) →
    ∃ rows, unpackRows Wd fields wordRows = some rows
      ∧ rows.length = wordRows.length
      ∧ (∀ row ∈ rows, row.length = fields.length)
      ∧ packRows Wd fields rows = some wordRows := by
  intro wordRows
  induction wordRows with
  | nil => intro _; exact ⟨[], rfl, rfl, fun r hr => absurd hr (by simp), rfl⟩
  | cons ws rest ih =>
    intro h
    obtain ⟨vs, h1, h2, h3⟩ := unpackRowWords_sound Wd fields ws hW hmeta
      (h ws (List.mem_cons_self _ _))
    obtain ⟨rows, hr1, hr2, hr3, hr4⟩ := ih (fun r hr => h r (List.mem_cons_of_mem _ hr))
    refine ⟨vs :: rows, ?_, by simp [hr2], ?_, ?_⟩
    · rw [unpackRows, h1, hr1]
    · intro row hrow
      cases hrow with
      | head => exact h2
      | tail _ h' => exact hr3 row h'
    · rw [packRows, h3, hr4]

theorem rowsToCols_colsToRows (nf R : Nat) (cols : List (List TableValue))
    (hc : cols.length = nf) (hl : ∀ col ∈ cols, col.length = R) :
    rowsToCols nf (colsToRows R cols) = cols := by
  apply List.ext_getElem
  · simp [rowsToCols, hc]
  · intro i h1 h2
    have hi : i < nf := by simpa [rowsToCols] using h1
    simp only [rowsToCols, List.getElem_map, List.getElem_range]
    apply List.ext_getElem
    · simp only [List.length_map, colsToRows, List.length_range]
      exact (hl _ (List.getElem_mem _)).symm
    · intro r hr1 hr2
      have hrR : r < R := by simpa [colsToRows] using hr1
      simp only [List.getElem_map, colsToRows, List.getElem_range]
      rw [List.getD_eq_getElem _ _ (by rw [List.length_map]; omega)]
      rw [List.getElem_map]
      rw [List.getD_eq_getElem _ _
        (by rw [hl _ (List.getElem_mem _)]; exact hrR)]

theorem colsToRows_rowsToCols (nf R : Nat) (rows : List (List TableValue))
    (hr : rows.length = R) (hl : ∀ row ∈ rows, row.length = nf) :
    colsToRows R (rowsToCols nf rows) = rows := by
  apply List.ext_getElem
  · simp [colsToRows, hr]
  · intro i h1 h2
    have hi : i < R := by simpa [colsToRows] using h1
    simp only [colsToRows, List.getElem_map, List.getElem_range]
    apply List.ext_getElem
    · simp only [List.length_map, rowsToCols, List.length_range]
      exact (hl _ (List.getElem_mem _)).symm
    · intro r hr1 hr2
      have hrR : r < nf := by simpa [rowsToCols] using hr1
      simp only [List.getElem_map, rowsToCols, List.getElem_range]
      rw [List.getD_eq_getElem _ _ (by rw [List.length_map]; omega)]
      rw [List.getElem_map]
      rw [List.getD_eq_getElem _ _
        (by rw [hl _ (List.getElem_mem _)]; exact hrR)]

theorem numRows_rowsToCols (nf : Nat) (hnf : 0 < nf) (rows : List (List TableValue)) :
    numRows (rowsToCols nf rows) = rows.length := by
  obtain ⟨m, rfl⟩ : ∃ m, nf = m + 1 := ⟨nf - 1, by omega⟩
  rw [rowsToCols, List.range_succ_eq_map, List.map_cons, numRows, List.length_map]

theorem packTable_then_unpack (Wd : Nat) (fields : List TableFieldDetails)
    (hW : 0 < Wd) (hmeta : metadataWFb fields = true)
    (cols : List (List TableValue)) (hcols : columnsWFb fields cols = true) :
    (packTable Wd fields cols).bind (unpackTable Wd fields) = some cols := by
  simp only [columnsWFb, Bool.and_eq_true, List.all_eq_true, decide_eq_true_eq] at hcols
  obtain ⟨⟨hclen, hcleneq⟩, hval⟩ := hcols
  have hrows : ∀ row ∈ colsToRows (numRows cols) cols, row.length = fields.length
      ∧ ∀ i (hif : i < fields.length) (hir : i < row.length),
          validValueb fields[i] row[i] = true := by
    intro row hrow
    rw [colsToRows, List.mem_map] at hrow
    obtain ⟨r, hrmem, rfl⟩ := hrow
    rw [List.mem_range] at hrmem
    constructor
    · rw [List.length_map, hclen]
    · intro i hif hir
      rw [List.getElem_map]
      have hicol : i < cols.length := by omega
      have hcollen : cols[i].length = numRows cols := hcleneq _ (List.getElem_mem _)
      rw [List.getD_eq_getElem _ _ (by omega)]
      have hz : (fields[i], cols[i]) ∈ fields.zip cols := by
        rw [List.mem_iff_getElem]
        refine ⟨i, by rw [List.length_zip]; omega, by rw [List.getElem_zip]⟩
      exact hval _ hz _ (List.getElem_mem _)
  obtain ⟨wr, hp, hu⟩ := packRows_sound Wd fields hW hmeta _ hrows
  simp only [packTable, hp, Option.some_bind, unpackTable, hu, Option.map_some']
  rw [rowsToCols_colsToRows fields.length (numRows cols) cols hclen hcleneq]

theorem unpackTable_then_pack (Wd : Nat) (fields : List TableFieldDetails)
    (hW : 0 < Wd) (hmeta : metadataWFb fields = true)
    (wordRows : List (List Nat)) (hwords : wordsWFb Wd fields wordRows = true) :
    (unpackTable Wd fields wordRows).bind (packTable Wd fields) = some wordRows := by
  rw [wordsWFb, List.all_eq_true] at hwords
  obtain ⟨rows, hu, hrlen, hrowlen, hp⟩ :=
    unpackRows_sound Wd fields hW hmeta wordRows hwords
  have hnf : 0 < fields.length := by
    have h := hmeta
    simp only [metadataWFb, Bool.and_eq_true] at h
    have h1 := h.1.1
    cases fields with
    | nil => simp at h1
    | cons f fs => simp
  simp only [unpackTable, hu, Option.map_some', Option.some_bind, packTable]
  rw [numRows_rowsToCols fields.length hnf rows,
    colsToRows_rowsToCols fields.length rows.length rows rfl hrowlen, hp]

/-- C2: the table codec round trip, modelled from the spec (the codec is not
part of the shown sources; only its fixtures are).  For every positive word
width and every well-formed Field Metadata set (nonempty, pairwise
non-overlapping bit ranges, per-field subtype/label constraints):
(1) for every Column Array whose values respect the declared widths and
subtypes, `unpack (pack columns) = columns`; and (2) for every well-formed
word array — `ceil((max bit_high + 1) / W)` words of `W` bits per row, no
bit set outside the declared field ranges, enum codes within their label
lists — `pack (unpack words) = words`. -/
theorem c2_table_codec_roundtrip (Wd : Nat) (fields : List TableFieldDetails)
    (hW : 0 < Wd) (hmeta : metadataWFb fields = true) :
    (∀ cols, columnsWFb fields cols = true →
        (packTable Wd fields cols).bind (unpackTable Wd fields) = some cols)
      ∧ (∀ wordRows, wordsWFb Wd fields wordRows = true →
        (unpackTable Wd fields wordRows).bind (packTable Wd fields) = some wordRows) :=
  ⟨fun cols hcols => packTable_then_unpack Wd fields hW hmeta cols hcols,
    fun wordRows hwords => unpackTable_then_pack Wd fields hW hmeta wordRows hwords⟩

/-- C2 witness: the SEQ.TABLE fixture (17 fields, 32-bit words, 3 rows):
both round trips at the concrete fixture data. -/
theorem c2_table_codec_roundtrip_witness :
    metadataWFb seqFields = true
      ∧ columnsWFb seqFields seqColumns = true
      ∧ (packTable 32 seqFields seqColumns).bind (unpackTable 32 seqFields)
          = some seqColumns
      ∧ wordsWFb 32 seqFields seqTableData = true
      ∧ (unpackTable 32 seqFields seqTableData).bind (packTable 32 seqFields)
          = some seqTableData :=
  ⟨by decide, by decide,
    (c2_table_codec_roundtrip 32 seqFields (by decide) (by decide)).1
      seqColumns (by decide),
    by decide,
    (c2_table_codec_roundtrip 32 seqFields (by decide) (by decide)).2
      seqTableData (by decide)⟩

/-- C5 witness: the display-form value `Pcap` converts to neither Control
nor Device form. -/
theorem c5_display_source_unsupported_witness :
    epicsNameValidator (.pviArg "Pcap".toList) = .error .notSupported
      ∧ pandaNameValidator (.pviArg "Pcap".toList) = .error .notSupported :=
  c5_display_source_unsupported "Pcap".toList

/-- C10 witness: a concrete construction, with every optional argument
supplied, still starts with no pending change and no field info. -/
theorem c10_record_info_fresh_state_witness :
    (RecordInfo.make Unit Unit Unit Unit () (some ["A"]) false (some ())).pending_change
        = false
      ∧ (RecordInfo.make Unit Unit Unit Unit () (some ["A"]) false (some ())).field_info
        = none
      ∧ (RecordInfo.make Unit Unit Unit Unit () (some ["A"]) false (some ())).record
        = none
      ∧ RecordInfo.makeDefault Unit Unit Unit Unit ()
        = RecordInfo.make Unit Unit Unit Unit () none true none
      ∧ trim_description none [] = (none, none) :=
  c10_record_info_fresh_state Unit Unit Unit Unit () (some ["A"]) false (some ()) []
